import Mathlib

/-!
# Verification of the Shannon.cpp arithmetic coder

A shallow embedding of `src/Shannon.cpp`: a static order-0 arithmetic coder
with a 16-bit working interval, a per-symbol frequency table clamped at
`MAX_FREQ`, cumulative ranges, an MSB-first bit packer, and a binary
container format.

Modelling conventions:
* a byte is a `Nat` below 256;
* C++ `uint32_t` arithmetic is `Nat` arithmetic reduced `% U32` at every
  operation that can exceed 32 bits (including wraparound subtraction,
  written `x + U32 - y` before the reduction);
* `std::map<char, uint32_t>` on the reference platforms orders keys by the
  *signed* `char` value; we represent it as an association list strictly
  sorted by `charKey b = (b + 128) % 256`, which realises exactly that
  order (bytes 128..255 first, then 0..127);
* `vector<bool>` push_back is modelled by consing onto a reversed
  accumulator which is reversed at the end;
* the C++ `while (true)` renormalisation loops are modelled with a fuel
  parameter (64).  For the coder states the theorems below speak about the
  loop provably exits within 17 iterations, so the fuel never runs out
  there;
* division by zero (C++ undefined behaviour, reachable only from malformed
  containers) evaluates to 0 in Lean; no theorem below depends on such a
  path except where explicitly noted.
-/

namespace Shannon

/-- 2^32, the modulus of C++ `uint32_t` arithmetic. -/
def U32 : Nat := 4294967296

/-- `const uint32_t MAX_FREQ = 16383;` -/
def MAX_FREQ : Nat := 16383

/-- `const uint32_t TOP = 0xFFFF;` -/
def TOP : Nat := 65535

/-- `const uint32_t FIRST_QTR = (TOP + 1) / 4;` -/
def FIRST_QTR : Nat := (TOP + 1) / 4

/-- `const uint32_t HALF = 2 * FIRST_QTR;` -/
def HALF : Nat := 2 * FIRST_QTR

/-- `const uint32_t THIRD_QTR = 3 * FIRST_QTR;` -/
def THIRD_QTR : Nat := 3 * FIRST_QTR

/-- `struct SymbolRange { uint32_t low; uint32_t high; uint32_t count; };`
(`count` stores the grand total, as filled in by `buildCumulativeFreq`). -/
structure SymbolRange where
  low : Nat
  high : Nat
  count : Nat
deriving Repr, DecidableEq

/-- Key realising the `std::map<char, _>` iteration order of signed
`char` keys on the reference platforms: bytes 128..255 (negative as
`char`) come before bytes 0..127. -/
def charKey (b : Nat) : Nat := (b + 128) % 256

/-- One step of `freq[current_char]++` (clamped at `MAX_FREQ`) on the
association list ordered by `charKey`.  `std::map::operator[]` inserts a
zero-initialised entry when absent, which the `if (freq[c] < MAX_FREQ)`
guard then increments to 1. -/
def freqIncr : List (Nat × Nat) → Nat → List (Nat × Nat)
  | [], b => [(b, 1)]
  | (k, c) :: rest, b =>
    if charKey b < charKey k then (b, 1) :: (k, c) :: rest
    else if charKey b = charKey k then
      (if c < MAX_FREQ then (k, c + 1) else (k, c)) :: rest
    else (k, c) :: freqIncr rest b

/-- `map<char, uint32_t> calculateFrequencies(const string& text)`. -/
def calculateFrequencies (text : List Nat) : List (Nat × Nat) :=
  text.foldl freqIncr []

/-- The grand total in `buildCumulativeFreq`:
`for (pair : freq) total += pair.second;` in `uint32_t`. -/
def freqTotal (freq : List (Nat × Nat)) : Nat :=
  freq.foldl (fun t p => (t + p.2) % U32) 0

/-- The per-symbol cumulative loop of `buildCumulativeFreq`:
`ranges[pair.first] = { cumulative, cumulative + pair.second, total };
cumulative += pair.second;` (all `uint32_t`). -/
def cumRanges (total : Nat) : List (Nat × Nat) → Nat → List (Nat × SymbolRange)
  | [], _ => []
  | (k, c) :: rest, cum =>
    (k, ⟨cum, (cum + c) % U32, total⟩) :: cumRanges total rest ((cum + c) % U32)

/-- `void buildCumulativeFreq(freq, ranges, total)`: returns the ranges
map (same key order as `freq`) and the grand total. -/
def buildCumulativeFreq (freq : List (Nat × Nat)) :
    List (Nat × SymbolRange) × Nat :=
  let total := freqTotal freq
  (cumRanges total freq 0, total)

/-- `ranges[c]` lookup in the ranges map.  The `.getD` default models
`std::map::operator[]` value-initialising a missing key to
`{0, 0, 0}` (only reachable in the decoder via the unmatched-symbol
fallback). -/
def lookupRange (ranges : List (Nat × SymbolRange)) (c : Nat) : SymbolRange :=
  ((ranges.find? (fun p => p.1 = c)).map Prod.snd).getD ⟨0, 0, 0⟩

/-! ## Bit sink / bit source (`writeBitVector` / `readBitVector`) -/

/-- Little-endian serialisation of a `uint32_t`, as produced by
`out.write(reinterpret_cast<const char*>(&x), 4)`. -/
def le32 (n : Nat) : List Nat :=
  [n % 256, n / 256 % 256, n / 65536 % 256, n / 16777216 % 256]

/-- Little-endian deserialisation of 4 bytes. -/
def de32 (b0 b1 b2 b3 : Nat) : Nat :=
  b0 + 256 * b1 + 65536 * b2 + 16777216 * b3

/-- The packing loop of `writeBitVector`: accumulate bits MSB-first into a
byte (`byte = (byte << 1) | bit`), flush every 8 bits, and right-pad the
final partial byte with zero bits (`byte <<= (8 - bit_count)`). -/
def packBits : List Bool → Nat → Nat → List Nat
  | [], _, 0 => []
  | [], byte, cnt => [byte * 2 ^ (8 - cnt) % 256]
  | b :: bs, byte, cnt =>
    let byte2 := (byte * 2 + (if b then 1 else 0)) % 256
    if cnt + 1 = 8 then byte2 :: packBits bs 0 0 else packBits bs byte2 (cnt + 1)

/-- `void writeBitVector(ofstream& out, const vector<bool>& bits)`:
a `uint32_t` bit count followed by the MSB-first packed bytes. -/
def writeBitVector (bits : List Bool) : List Nat :=
  le32 (bits.length % U32) ++ packBits bits 0 0

/-- The 8 bits of one byte, MSB first, as read back by `readBitVector`
(`for (i = 7; i >= 0; i--) bits.push_back((byte >> i) & 1)`). -/
def unpackByte (byte : Nat) : List Bool :=
  [byte.testBit 7, byte.testBit 6, byte.testBit 5, byte.testBit 4,
   byte.testBit 3, byte.testBit 2, byte.testBit 1, byte.testBit 0]

/-- All bits of a byte list, MSB first within each byte. -/
def unpackBytes (bytes : List Nat) : List Bool :=
  (bytes.map unpackByte).flatten

/-- The body of `readBitVector` once the `uint32_t` count has been read:
unpack bytes MSB-first and stop exactly at the declared count (the byte
loop runs `while (in.get(byte) && bits.size() < bitSize)`, so it also
stops early, silently, when the stream runs out). -/
def readBitsCounted (bitSize : Nat) (bytes : List Nat) : List Bool :=
  (unpackBytes bytes).take bitSize

/-- `vector<bool> readBitVector(ifstream& in)` on a byte list: `none` when
fewer than 4 bytes remain for the count (the C++ would then operate on an
indeterminate `bitSize`). -/
def readBitVector : List Nat → Option (List Bool)
  | b0 :: b1 :: b2 :: b3 :: rest => some (readBitsCounted (de32 b0 b1 b2 b3) rest)
  | _ => none

/-! ## Arithmetic encoder (`compressFile`) -/

/-- Encoder state: `low`, `high`, `pending_bits`, and the emitted bits.
`bitsRev` holds the `output_bits` vector in reverse (push_back is cons). -/
structure EncSt where
  low : Nat
  high : Nat
  pending : Nat
  bitsRev : List Bool
deriving Repr, DecidableEq

/-- `while (pending_bits > 0) { output_bits.push_back(b); pending_bits--; }`
on the reversed accumulator. -/
def pushPending : Nat → Bool → List Bool → List Bool
  | 0, _, acc => acc
  | n + 1, b, acc => pushPending n b (b :: acc)

/-- Whether the E1 condition `high < HALF` holds. -/
def condE1 (st : EncSt) : Prop := st.high < HALF

/-- Whether the E2 condition `low >= HALF` holds. -/
def condE2 (st : EncSt) : Prop := HALF ≤ st.low

/-- Whether the E3 condition `low >= FIRST_QTR && high < THIRD_QTR` holds. -/
def condE3 (st : EncSt) : Prop := FIRST_QTR ≤ st.low ∧ st.high < THIRD_QTR

instance : DecidablePred condE1 := fun st => by unfold condE1; infer_instance
instance : DecidablePred condE2 := fun st => by unfold condE2; infer_instance
instance : DecidablePred condE3 := fun st => by unfold condE3; infer_instance

/-- The encoder's `while (true)` renormalisation loop, fuelled.  Each
branch matches the C++ exactly: E1 emits `0` then the pending `1`s and
shifts; E2 emits `1` then the pending `0`s, subtracts `HALF` and shifts;
E3 defers (increments `pending_bits`), subtracts `FIRST_QTR` and shifts.
All shifts are `uint32_t` (`% U32`); the guards make the `Nat`
subtractions exact. -/
def renormE : Nat → EncSt → EncSt
  | 0, st => st
  | fuel + 1, st =>
    if condE1 st then
      renormE fuel ⟨st.low * 2 % U32, (st.high * 2 + 1) % U32, 0,
        pushPending st.pending true (false :: st.bitsRev)⟩
    else if condE2 st then
      renormE fuel ⟨(st.low - HALF) * 2 % U32, ((st.high - HALF) * 2 + 1) % U32, 0,
        pushPending st.pending false (true :: st.bitsRev)⟩
    else if condE3 st then
      renormE fuel ⟨(st.low - FIRST_QTR) * 2 % U32,
        ((st.high - FIRST_QTR) * 2 + 1) % U32, st.pending + 1, st.bitsRev⟩
    else st

/-- Fuel for the renormalisation loops; the loop provably exits within 17
iterations from any state with `low ≤ high ≤ TOP` (see
`renormE_exits`), so 64 is never exhausted on the states the theorems
below quantify over. -/
def renormFuel : Nat := 64

/-- The interval narrowing of one symbol:
`range = high - low + 1;`
`high = low + (range * r.high) / r.count - 1;`
`low  = low + (range * r.low) / r.count;`
in `uint32_t` (products and sums reduced `% U32`, the `- 1` as
wraparound subtraction). -/
def narrow (st : EncSt) (r : SymbolRange) : EncSt :=
  let range := (st.high + U32 + 1 - st.low) % U32
  let nh := ((st.low + range * r.high % U32 / r.count) % U32 + U32 - 1) % U32
  let nl := (st.low + range * r.low % U32 / r.count) % U32
  { st with low := nl, high := nh }

/-- The per-symbol body of the encoder loop: narrow, then renormalise. -/
def encodeSym (ranges : List (Nat × SymbolRange)) (st : EncSt) (c : Nat) : EncSt :=
  renormE renormFuel (narrow st (lookupRange ranges c))

/-- Initial coder state: `low = 0`, `high = TOP`, no pending bits. -/
def encInit : EncSt := ⟨0, TOP, 0, []⟩

/-- Stream-end finalisation: `pending_bits++;` then emit one resolving bit
and `pending_bits` complementary bits (`while (pending_bits-- > 0)`). -/
def finalizeBits (st : EncSt) : List Bool :=
  if st.low < FIRST_QTR then pushPending (st.pending + 1) true (false :: st.bitsRev)
  else pushPending (st.pending + 1) false (true :: st.bitsRev)

/-- The complete bit sequence emitted by `compressFile` for `text`
(in emission order). -/
def encodeBits (text : List Nat) : List Bool :=
  let ranges := (buildCumulativeFreq (calculateFrequencies text)).1
  (finalizeBits (text.foldl (encodeSym ranges) encInit)).reverse

/-- The container bytes written by `compressFile`: `freq_size:u32`, then
per entry `symbol:u8, count:u32`, then `text_size:u32`, then the bit
vector. -/
def compressFile (text : List Nat) : List Nat :=
  let freq := calculateFrequencies text
  le32 (freq.length % U32) ++
    (freq.map (fun p => p.1 :: le32 p.2)).flatten ++
    le32 (text.length % U32) ++
    writeBitVector (encodeBits text)

/-! ## Arithmetic decoder (`decompressFile`) -/

/-- Decoder state: `low`, `high`, the `value` register, and the unread
suffix of the bit sequence. -/
structure DecSt where
  low : Nat
  high : Nat
  value : Nat
  rest : List Bool
deriving Repr, DecidableEq

/-- Priming loop: `for (i = 0; i < 16 && bit_index < bits.size(); i++)
value = (value << 1) | bits[bit_index++];` — note it simply stops when
the bits run out instead of shifting in zeros. -/
def primeValue : Nat → Nat → List Bool → Nat × List Bool
  | 0, v, bs => (v, bs)
  | _ + 1, v, [] => (v, [])
  | n + 1, v, b :: bs => primeValue n ((v * 2 + (if b then 1 else 0)) % U32) bs

/-- The decoder's linear scan: the first symbol whose half-open interval
`[low, high)` contains `scaled`; `char symbol = 0;` means the fallback
when nothing matches is the symbol 0. -/
def scanSymbol (ranges : List (Nat × SymbolRange)) (scaled : Nat) : Nat :=
  match ranges.find? (fun p => decide (p.2.low ≤ scaled ∧ scaled < p.2.high)) with
  | some p => p.1
  | none => 0

/-- Whether some interval of `ranges` contains `scaled`. -/
def hasMatch (ranges : List (Nat × SymbolRange)) (scaled : Nat) : Bool :=
  ranges.any (fun p => decide (p.2.low ≤ scaled ∧ scaled < p.2.high))

/-- The decoder's renormalisation loop: same three branches on
`low`/`high` as the encoder, but shifting `value` identically (with
wraparound `uint32_t` subtraction, since a corrupt `value` may be
smaller than the subtrahend) and pulling the next unread bit into its
low end, or nothing once the bits are exhausted. -/
def renormD : Nat → DecSt → DecSt
  | 0, st => st
  | fuel + 1, st =>
    if st.high < HALF then
      renormD fuel ⟨st.low * 2 % U32, (st.high * 2 + 1) % U32,
        pullBit (st.value * 2 % U32) st.rest, st.rest.drop 1⟩
    else if HALF ≤ st.low then
      renormD fuel ⟨(st.low - HALF) * 2 % U32, ((st.high - HALF) * 2 + 1) % U32,
        pullBit ((st.value + U32 - HALF) % U32 * 2 % U32) st.rest, st.rest.drop 1⟩
    else if FIRST_QTR ≤ st.low ∧ st.high < THIRD_QTR then
      renormD fuel ⟨(st.low - FIRST_QTR) * 2 % U32,
        ((st.high - FIRST_QTR) * 2 + 1) % U32,
        pullBit ((st.value + U32 - FIRST_QTR) % U32 * 2 % U32) st.rest, st.rest.drop 1⟩
    else st
where
  /-- `if (bit_index < bits.size()) value |= bits[bit_index++];` -/
  pullBit (v : Nat) : List Bool → Nat
    | [] => v
    | b :: _ => v + (if b then 1 else 0)

/-- `scaled_value = ((value - low + 1) * total - 1) / range` in
`uint32_t` (wraparound subtractions, product `% U32`; division by a zero
`range` — C++ undefined behaviour — evaluates to 0 here). -/
def scaledValue (st : DecSt) (total range : Nat) : Nat :=
  (((st.value + U32 - st.low) % U32 + 1) % U32 * total % U32 + U32 - 1) % U32 / range

/-- One iteration of the decoding loop: compute `scaled_value`, scan for
the symbol (fallback 0), append it, narrow by the symbol's range, and
renormalise.  Returns the decoded symbol with the new state. -/
def decodeStep (ranges : List (Nat × SymbolRange)) (total : Nat) (st : DecSt) :
    Nat × DecSt :=
  let range := (st.high + U32 + 1 - st.low) % U32
  let scaled := scaledValue st total range
  let symbol := scanSymbol ranges scaled
  let r := lookupRange ranges symbol
  let nh := ((st.low + range * r.high % U32 / r.count) % U32 + U32 - 1) % U32
  let nl := (st.low + range * r.low % U32 / r.count) % U32
  (symbol, renormD renormFuel ⟨nl, nh, st.value, st.rest⟩)

/-- The decoding loop, `text_size` iterations, accumulating the output in
reverse. -/
def decodeLoop (ranges : List (Nat × SymbolRange)) (total : Nat) :
    Nat → DecSt → List Nat → List Nat
  | 0, _, acc => acc.reverse
  | n + 1, st, acc =>
    let (symbol, st') := decodeStep ranges total st
    decodeLoop ranges total n st' (symbol :: acc)

/-- The decoder core, given the already-parsed frequency table, symbol
count and bit sequence: prime `value` from the first (up to) 16 bits,
then decode `text_size` symbols. -/
def decompressCore (freq : List (Nat × Nat)) (text_size : Nat)
    (bits : List Bool) : List Nat :=
  let ft := buildCumulativeFreq freq
  let pv := primeValue 16 0 bits
  decodeLoop ft.1 ft.2 text_size ⟨0, TOP, pv.1, pv.2⟩ []

/-! ## Container parsing (`decompressFile` on raw bytes) -/

/-- Insert-or-replace into the frequency map ordered by `charKey`:
`freq[current_char] = frequency;` in the decoder's header loop. -/
def freqSet : List (Nat × Nat) → Nat → Nat → List (Nat × Nat)
  | [], b, f => [(b, f)]
  | (k, c) :: rest, b, f =>
    if charKey b < charKey k then (b, f) :: (k, c) :: rest
    else if charKey b = charKey k then (k, f) :: rest
    else (k, c) :: freqSet rest b f

/-- Parse `freq_size` frequency entries (`symbol:u8, count:u32` each);
`none` when the bytes run out (the C++ reads then operate on
indeterminate values). -/
def parseFreqEntries : Nat → List Nat → List (Nat × Nat) →
    Option (List (Nat × Nat) × List Nat)
  | 0, rest, acc => some (acc, rest)
  | n + 1, s :: c0 :: c1 :: c2 :: c3 :: rest, acc =>
    parseFreqEntries n rest (freqSet acc s (de32 c0 c1 c2 c3))
  | _ + 1, _, _ => none

/-- `void decompressFile(ifstream& in, ofstream& out)` on the raw
container bytes.  `none` models the header reads hitting end-of-stream,
where the C++ would continue with indeterminate values; a bit payload
shorter than the declared bit count is NOT an error (`readBitVector`
silently returns fewer bits). -/
def decompressFile (data : List Nat) : Option (List Nat) :=
  match data with
  | f0 :: f1 :: f2 :: f3 :: rest => do
    let (freq, rest) ← parseFreqEntries (de32 f0 f1 f2 f3) rest []
    match rest with
    | t0 :: t1 :: t2 :: t3 :: rest =>
      let text_size := de32 t0 t1 t2 t3
      let bits ← readBitVector rest
      some (decompressCore freq text_size bits)
    | _ => none
  | _ => none

/-! ## Instrumented runs

Checkers tracing the same step functions, used to state properties about
intermediate coder states. -/

/-- Does any of the `n` decode steps compute a `scaled_value` matching no
symbol interval?  Folds with the very same `decodeStep`. -/
def decodeUnmatched (ranges : List (Nat × SymbolRange)) (total : Nat) :
    Nat → DecSt → Bool
  | 0, _ => false
  | n + 1, st =>
    let range := (st.high + U32 + 1 - st.low) % U32
    (!hasMatch ranges (scaledValue st total range)) ||
      decodeUnmatched ranges total n (decodeStep ranges total st).2

/-- `decompressFile` instrumented with `decodeUnmatched`: does the run on
this container hit an unmatched `scaled_value`? -/
def decompressHitsUnmatched (data : List Nat) : Option Bool :=
  match data with
  | f0 :: f1 :: f2 :: f3 :: rest => do
    let (freq, rest) ← parseFreqEntries (de32 f0 f1 f2 f3) rest []
    match rest with
    | t0 :: t1 :: t2 :: t3 :: rest =>
      let text_size := de32 t0 t1 t2 t3
      let bits ← readBitVector rest
      let ft := buildCumulativeFreq freq
      let pv := primeValue 16 0 bits
      some (decodeUnmatched ft.1 ft.2 text_size ⟨0, TOP, pv.1, pv.2⟩)
    | _ => none
  | _ => none

/-- Checks `low < high` right after every per-symbol narrowing of the
encoder run (the states between `narrow` and the renormalisation loop);
folds with the same `narrow`/`renormE` as `encodeSym`. -/
def encNarrowStrict (ranges : List (Nat × SymbolRange)) :
    List Nat → EncSt → Bool
  | [], _ => true
  | c :: cs, st =>
    let st1 := narrow st (lookupRange ranges c)
    decide (st1.low < st1.high) && encNarrowStrict ranges cs (renormE renormFuel st1)

/-- `low < high` after every narrowing of the encoder run of `text`. -/
def encodeNarrowStrictAll (text : List Nat) : Bool :=
  encNarrowStrict (buildCumulativeFreq (calculateFrequencies text)).1 text encInit

/-- Per-symbol step check: `low ≤ high` right after narrowing, and after
the renormalisation loop `low < high` with none of the E1/E2/E3
conditions still holding. -/
def encStepOk (st1 st2 : EncSt) : Bool :=
  decide (st1.low ≤ st1.high) && decide (st2.low < st2.high) &&
    !(decide (condE1 st2)) && !(decide (condE2 st2)) && !(decide (condE3 st2))

/-- `encStepOk` at every symbol of the encoder run. -/
def encStepsOk (ranges : List (Nat × SymbolRange)) : List Nat → EncSt → Bool
  | [], _ => true
  | c :: cs, st =>
    let st1 := narrow st (lookupRange ranges c)
    let st2 := renormE renormFuel st1
    encStepOk st1 st2 && encStepsOk ranges cs st2

/-- `encStepOk` at every symbol of the encoder run of `text`. -/
def encodeStepsOkAll (text : List Nat) : Bool :=
  encStepsOk (buildCumulativeFreq (calculateFrequencies text)).1 text encInit

/-! ## Spec-side encoder (for the refinement claim)

A second rendering of the encoder transcribed from the specification's
own wording (§4.3): the narrowing formulas
`high = low + range*symbolHigh/total − 1`, `low = low + range*symbolLow/total`
dividing by the shared grand total; the E1/E2/E3 renormalisation applied
repeatedly until none of the conditions holds, emitting the pending bits
as a block (`List.replicate`); and the final resolving bit followed by
`pendingBits + 1` complementary bits.  The output bits are appended in
emission order. -/

/-- Spec-side encoder state; `bits` is the emitted sequence in order. -/
structure SpecSt where
  low : Nat
  high : Nat
  pending : Nat
  bits : List Bool
deriving Repr, DecidableEq

/-- Spec §4.3 step 2, dividing by the shared `total` (32-bit ops). -/
def specNarrow (st : SpecSt) (symbolLow symbolHigh total : Nat) : SpecSt :=
  let range := (st.high + U32 + 1 - st.low) % U32
  { st with
    high := ((st.low + range * symbolHigh % U32 / total) % U32 + U32 - 1) % U32,
    low := (st.low + range * symbolLow % U32 / total) % U32 }

/-- Spec §4.3 step 3: renormalise until none of E1/E2/E3 holds; E1 emits
`0` then `pendingBits` ones, E2 emits `1` then `pendingBits` zeros, E3
defers. -/
def specRenorm : Nat → SpecSt → SpecSt
  | 0, st => st
  | fuel + 1, st =>
    if st.high < HALF then
      specRenorm fuel ⟨st.low * 2 % U32, (st.high * 2 + 1) % U32, 0,
        st.bits ++ false :: List.replicate st.pending true⟩
    else if HALF ≤ st.low then
      specRenorm fuel ⟨(st.low - HALF) * 2 % U32, ((st.high - HALF) * 2 + 1) % U32, 0,
        st.bits ++ true :: List.replicate st.pending false⟩
    else if FIRST_QTR ≤ st.low ∧ st.high < THIRD_QTR then
      specRenorm fuel ⟨(st.low - FIRST_QTR) * 2 % U32,
        ((st.high - FIRST_QTR) * 2 + 1) % U32, st.pending + 1, st.bits⟩
    else st

/-- Spec-side per-symbol step: narrow by the symbol's cumulative bounds
over the shared total, then renormalise. -/
def specEncodeSym (ranges : List (Nat × SymbolRange)) (total : Nat)
    (st : SpecSt) (c : Nat) : SpecSt :=
  let r := lookupRange ranges c
  specRenorm renormFuel (specNarrow st r.low r.high total)

/-- Spec §4.3 step 4: one resolving bit, then `pendingBits + 1`
complementary bits. -/
def specFinalize (st : SpecSt) : List Bool :=
  if st.low < FIRST_QTR then st.bits ++ false :: List.replicate (st.pending + 1) true
  else st.bits ++ true :: List.replicate (st.pending + 1) false

/-- The spec-side encoder's full bit sequence for `text`. -/
def specEncodeBits (text : List Nat) : List Bool :=
  let ft := buildCumulativeFreq (calculateFrequencies text)
  specFinalize (text.foldl (specEncodeSym ft.1 ft.2) ⟨0, TOP, 0, []⟩)

/-! ## Exact-arithmetic narrowing (for the overflow claim) -/

/-- The narrowing formulas in exact (unbounded) arithmetic: what the
`uint32_t` code computes exactly when no product reaches `2^32`. -/
def narrowExact (st : EncSt) (r : SymbolRange) : EncSt :=
  let range := st.high + 1 - st.low
  { st with
    high := st.low + range * r.high / r.count - 1,
    low := st.low + range * r.low / r.count }

/-! ## Auxiliary predicates and concrete inputs -/

/-- The `cnt` bits of `acc` (which is below `2 ^ cnt`), MSB first: the
contents of the bit packer's partial byte. -/
def bitsOfAcc (acc cnt : Nat) : List Bool :=
  (List.range cnt).map (fun i => acc.testBit (cnt - 1 - i))

/-- Sum of the counts of a frequency table (exact, unbounded). -/
def sumCounts (l : List (Nat × Nat)) : Nat := (l.map Prod.snd).sum

/-- The count recorded for symbol `k` (0 when absent). -/
def freqCount (l : List (Nat × Nat)) (k : Nat) : Nat :=
  ((l.find? (fun p => p.1 = k)).map Prod.snd).getD 0

/-- Well-formedness of a frequency table as built by
`calculateFrequencies` from a byte string: keys strictly sorted in the
`charKey` (signed `char`) order, every key a byte, every count in
`[1, MAX_FREQ]`. -/
def FreqInv (l : List (Nat × Nat)) : Prop :=
  (l.map (fun p => charKey p.1)).Pairwise (· < ·) ∧
    ∀ p ∈ l, p.1 < 256 ∧ 1 ≤ p.2 ∧ p.2 ≤ MAX_FREQ

/-- A good coder state: bounds in range and the renormalisation loop's
exit conditions reached. -/
def GoodSt (st : EncSt) : Prop :=
  st.low ≤ st.high ∧ st.high ≤ TOP ∧ ¬condE1 st ∧ ¬condE2 st ∧ ¬condE3 st

/-- A container whose bit payload makes the decoder's `scaled_value` fall
outside every symbol interval at the second decoding step:
`freq_size = 2`, entries (0 ↦ 1) and (65 ↦ 65539) (total 65540, so the
narrowing product `range * symbolHigh` wraps past `2^32`),
`text_size = 2`, 16 declared bits `0000000000000011`. -/
def unmatchedContainer : List Nat :=
  [2, 0, 0, 0, 0, 1, 0, 0, 0, 65, 3, 0, 1, 0, 2, 0, 0, 0, 16, 0, 0, 0, 0, 3]

/-- A container declaring 100 payload bits but carrying a single payload
byte (8 bits): `freq_size = 1`, entry (65 ↦ 1), `text_size = 1`,
declared bit count 100, payload `[0x00]`. -/
def shortPayloadContainer : List Nat :=
  [1, 0, 0, 0, 65, 1, 0, 0, 0, 1, 0, 0, 0, 100, 0, 0, 0, 0]

/-- A 9000-byte input (symbol counts 65 ↦ 899, 66 ↦ 1, 67 ↦ 8100, grand
total 9000) on which the encoder's 127th narrowing step produces a
zero-width interval `low = high`. -/
def zeroWidthText : List Nat :=
  (List.replicate 63 [65, 67]).flatten ++ [66] ++
    (List.replicate 836 [65, 67]).flatten ++ List.replicate 7201 67

/-! # Theorems -/

/-! ## Arithmetic helpers -/

lemma U32_pos : 0 < U32 := by decide

lemma u32_mod_id (x : Nat) (h : x < U32) : x % U32 = x := Nat.mod_eq_of_lt h

/-- `uint32_t` wraparound subtraction `a - b` is exact when `b ≤ a < 2^32`. -/
lemma wrap_sub (a b : Nat) (h1 : b ≤ a) (h2 : a - b < U32) :
    (a + U32 - b) % U32 = a - b := by
  have h : a + U32 - b = U32 + (a - b) := by omega
  rw [h, Nat.add_mod_left, Nat.mod_eq_of_lt h2]

/-! ## The frequency table (shared infrastructure) -/

lemma charKey_lt_256 (b : Nat) : charKey b < 256 := Nat.mod_lt _ (by norm_num)

lemma charKey_inj {a b : Nat} (ha : a < 256) (hb : b < 256)
    (h : charKey a = charKey b) : a = b := by
  unfold charKey at h; omega

/-- The recorded count of a key absent from the table is 0. -/
lemma freqCount_of_not_mem {l : List (Nat × Nat)} {k : Nat}
    (h : k ∉ l.map Prod.fst) : freqCount l k = 0 := by
  have : l.find? (fun p => p.1 = k) = none := by
    rw [List.find?_eq_none]
    intro p hp
    simp only [decide_eq_true_eq]
    exact fun hk => h (hk ▸ List.mem_map_of_mem Prod.fst hp)
  simp [freqCount, this]

/-- Recorded counts never exceed `MAX_FREQ` on a well-formed table. -/
lemma freqCount_le_MAX {l : List (Nat × Nat)} (hinv : FreqInv l) (k : Nat) :
    freqCount l k ≤ MAX_FREQ := by
  unfold freqCount
  cases hf : l.find? (fun p => p.1 = k) with
  | none => simp [MAX_FREQ]
  | some p => exact (hinv.2 p (List.mem_of_find?_eq_some hf)).2.2

/-- A nonzero recorded count means the key is present and vice versa (all
counts being positive). -/
lemma freqCount_ne_zero_iff {l : List (Nat × Nat)} (hpos : ∀ p ∈ l, 1 ≤ p.2)
    (k : Nat) : freqCount l k ≠ 0 ↔ k ∈ l.map Prod.fst := by
  constructor
  · intro h
    by_contra hk
    exact h (freqCount_of_not_mem hk)
  · intro hk
    obtain ⟨p, hp, hpk⟩ := List.mem_map.1 hk
    have : (l.find? (fun p => p.1 = k)).isSome := by
      rw [List.find?_isSome]
      exact ⟨p, hp, by simp [hpk]⟩
    obtain ⟨q, hq⟩ := Option.isSome_iff_exists.1 this
    have hq1 : 1 ≤ q.2 := hpos q (List.mem_of_find?_eq_some hq)
    simp only [freqCount, hq, Option.map_some', Option.getD_some]
    omega

/-- `freqCount` on a cons cell. -/
lemma freqCount_cons (a c k : Nat) (l : List (Nat × Nat)) :
    freqCount ((a, c) :: l) k = if a = k then c else freqCount l k := by
  by_cases h : a = k <;> simp [freqCount, List.find?_cons, h]

/-- In a `Pairwise`-sorted table, the head's key is `charKey`-below every
tail key. -/
lemma head_lt_tail_keys {k0 c0} {tl : List (Nat × Nat)}
    (h : (((k0, c0) :: tl).map (fun p => charKey p.1)).Pairwise (· < ·)) :
    ∀ p ∈ tl, charKey k0 < charKey p.1 := by
  intro p hp
  simp only [List.map_cons, List.pairwise_cons] at h
  exact h.1 _ (List.mem_map_of_mem _ hp)


/-- How one `freqIncr` step changes each recorded count. -/
lemma freqIncr_count (l : List (Nat × Nat)) (b k : Nat) (hb : b < 256)
    (hinv : FreqInv l) :
    freqCount (freqIncr l b) k =
      if k = b then
        (if freqCount l b < MAX_FREQ then freqCount l b + 1 else freqCount l b)
      else freqCount l k := by
  induction l with
  | nil =>
    simp only [freqIncr]
    rw [freqCount_cons]
    by_cases hkb : k = b
    · subst hkb
      simp [freqCount, MAX_FREQ]
    · rw [if_neg (fun h => hkb h.symm), if_neg hkb]
  | cons hd tl ih =>
    obtain ⟨k0, c0⟩ := hd
    have hk0 : k0 < 256 := (hinv.2 (k0, c0) (by simp)).1
    have htl : FreqInv tl :=
      ⟨(List.pairwise_cons.1 (by simpa using hinv.1)).2,
        fun p hp => hinv.2 p (List.mem_cons_of_mem _ hp)⟩
    by_cases h1 : charKey b < charKey k0
    · -- inserted in front; `b` cannot occur in the old list
      have hbold : freqCount ((k0, c0) :: tl) b = 0 := by
        apply freqCount_of_not_mem
        intro hmem
        obtain ⟨p, hp, hpb⟩ := List.mem_map.1 hmem
        rcases List.mem_cons.1 hp with h | h
        · have hk0b : k0 = b := by rw [h] at hpb; exact hpb
          rw [hk0b] at h1
          omega
        · have h2 := head_lt_tail_keys hinv.1 p h
          rw [hpb] at h2
          omega
      simp only [freqIncr, if_pos h1]
      rw [freqCount_cons, hbold]
      by_cases hkb : k = b
      · subst hkb
        rw [if_pos rfl, if_pos rfl, if_pos (show 0 < MAX_FREQ by decide)]
      · rw [if_neg (fun h => hkb h.symm), if_neg hkb]
    · by_cases h2 : charKey b = charKey k0
      · -- same key: increment, clamped at MAX_FREQ
        have hbk0 : b = k0 := charKey_inj hb hk0 h2
        subst hbk0
        simp only [freqIncr, if_neg h1, if_pos h2, if_true]
        by_cases hc : c0 < MAX_FREQ
        · rw [if_pos hc]
          simp only [freqCount_cons, eq_self_iff_true, if_true]
          by_cases hkb : k = b
          · subst hkb
            simp [hc]
          · rw [if_neg (fun h => hkb h.symm), if_neg hkb,
              if_neg (fun h => hkb h.symm)]
        · rw [if_neg hc]
          simp only [freqCount_cons, eq_self_iff_true, if_true]
          by_cases hkb : k = b
          · subst hkb
            simp [hc]
          · rw [if_neg (fun h => hkb h.symm), if_neg hkb]
      · -- key goes to the tail
        have hbk0 : ¬ b = k0 := fun h => h2 (by rw [h])
        simp only [freqIncr, if_neg h1, if_neg h2]
        simp only [freqCount_cons]
        by_cases hk0k : k0 = k
        · subst hk0k
          have hkb : ¬ k0 = b := fun h => hbk0 h.symm
          simp [hkb]
        · simp only [if_neg hk0k]
          rw [ih htl]
          by_cases hkb : k = b
          · subst hkb
            rw [if_pos rfl, if_pos rfl,
              if_neg (fun h : k0 = k => hk0k h)]
          · rw [if_neg hkb, if_neg hkb]

/-- The keys after a `freqIncr` step are among the old keys plus `b`. -/
lemma freqIncr_keys (l : List (Nat × Nat)) (b : Nat) :
    ∀ k ∈ (freqIncr l b).map Prod.fst, k = b ∨ k ∈ l.map Prod.fst := by
  induction l with
  | nil =>
    intro k hk
    simp only [freqIncr, List.map_cons, List.map_nil, List.mem_singleton] at hk
    left; exact hk
  | cons hd tl ih =>
    obtain ⟨k0, c0⟩ := hd
    intro k hk
    by_cases h1 : charKey b < charKey k0
    · simp only [freqIncr, if_pos h1, List.map_cons, List.mem_cons] at hk
      rcases hk with h | h
      · left; exact h
      · right; simpa using h
    · by_cases h2 : charKey b = charKey k0
      · simp only [freqIncr, if_neg h1, if_pos h2] at hk
        by_cases hc : c0 < MAX_FREQ
        · rw [if_pos hc] at hk
          simp only [List.map_cons, List.mem_cons] at hk
          rcases hk with h | h
          · right; simp [h]
          · right; simp [h]
        · rw [if_neg hc] at hk
          simp only [List.map_cons, List.mem_cons] at hk
          rcases hk with h | h
          · right; simp [h]
          · right; simp [h]
      · simp only [freqIncr, if_neg h1, if_neg h2, List.map_cons,
          List.mem_cons] at hk
        rcases hk with h | h
        · right; simp [h]
        · rcases ih k h with h | h
          · left; exact h
          · right; simp [h]

/-- `freqIncr` preserves well-formedness of the table. -/
lemma freqIncr_inv (l : List (Nat × Nat)) (b : Nat) (hb : b < 256)
    (hinv : FreqInv l) : FreqInv (freqIncr l b) := by
  induction l with
  | nil =>
    refine ⟨by simp [freqIncr], ?_⟩
    intro p hp
    simp only [freqIncr, List.mem_singleton] at hp
    subst hp
    exact ⟨hb, by simp [MAX_FREQ]⟩
  | cons hd tl ih =>
    obtain ⟨k0, c0⟩ := hd
    have hk0 : k0 < 256 := (hinv.2 (k0, c0) (by simp)).1
    have htl : FreqInv tl :=
      ⟨(List.pairwise_cons.1 (by simpa using hinv.1)).2,
        fun p hp => hinv.2 p (List.mem_cons_of_mem _ hp)⟩
    by_cases h1 : charKey b < charKey k0
    · constructor
      · simp only [freqIncr, if_pos h1, List.map_cons, List.pairwise_cons]
        refine ⟨?_, by simpa using hinv.1⟩
        intro a ha
        simp only [List.mem_cons] at ha
        rcases ha with h | h
        · omega
        · rcases List.mem_map.1 h with ⟨p, hp, hpk⟩
          have h3 := head_lt_tail_keys hinv.1 p hp
          omega
      · intro p hp
        simp only [freqIncr, if_pos h1, List.mem_cons] at hp
        rcases hp with h | h
        · subst h; exact ⟨hb, by simp [MAX_FREQ]⟩
        · exact hinv.2 p (by simpa using h)
    · by_cases h2 : charKey b = charKey k0
      · constructor
        · simp only [freqIncr, if_neg h1, if_pos h2]
          by_cases hc : c0 < MAX_FREQ <;> simpa [hc] using hinv.1
        · intro p hp
          simp only [freqIncr, if_neg h1, if_pos h2, List.mem_cons] at hp
          have hc0 := hinv.2 (k0, c0) (by simp)
          by_cases hc : c0 < MAX_FREQ
          · rw [if_pos hc] at hp
            rcases hp with h | h
            · subst h
              refine ⟨hk0, by omega, by simp only [MAX_FREQ] at hc ⊢; omega⟩
            · exact hinv.2 p (List.mem_cons_of_mem _ h)
          · rw [if_neg hc] at hp
            rcases hp with h | h
            · subst h; exact hc0
            · exact hinv.2 p (List.mem_cons_of_mem _ h)
      · constructor
        · simp only [freqIncr, if_neg h1, if_neg h2, List.map_cons,
            List.pairwise_cons]
          refine ⟨?_, (ih htl).1⟩
          intro a ha
          rcases List.mem_map.1 ha with ⟨p, hp, hpk⟩
          rcases freqIncr_keys tl b p.1 (List.mem_map_of_mem Prod.fst hp)
            with h | h
          · rw [← hpk, h]; omega
          · rcases List.mem_map.1 h with ⟨q, hq, hqk⟩
            have h3 := head_lt_tail_keys hinv.1 q hq
            rw [← hpk, ← hqk]
            exact h3
        · intro p hp
          simp only [freqIncr, if_neg h1, if_neg h2, List.mem_cons] at hp
          rcases hp with h | h
          · subst h; exact hinv.2 (k0, c0) (by simp)
          · exact (ih htl).2 p h

/-- The well-formedness invariant holds along the whole fold. -/
lemma foldl_freqIncr_inv (text : List Nat) : ∀ l, (∀ x ∈ text, x < 256) →
    FreqInv l → FreqInv (text.foldl freqIncr l) := by
  induction text with
  | nil => intro l _ hinv; exact hinv
  | cons c rest ih =>
    intro l h hinv
    exact ih (freqIncr l c) (fun x hx => h x (List.mem_cons_of_mem _ hx))
      (freqIncr_inv l c (h c (by simp)) hinv)

/-- Folding the counter over `text` adds `text.count k` to each recorded
count, saturating at `MAX_FREQ`. -/
lemma foldl_freqIncr_count (text : List Nat) : ∀ (l : List (Nat × Nat)) (k : Nat),
    (∀ x ∈ text, x < 256) → FreqInv l →
    freqCount (text.foldl freqIncr l) k =
      min (freqCount l k + text.count k) MAX_FREQ := by
  induction text with
  | nil =>
    intro l k _ hinv
    have := freqCount_le_MAX hinv k
    simp only [List.foldl_nil, List.count_nil]
    omega
  | cons c rest ih =>
    intro l k h hinv
    have hc : c < 256 := h c (by simp)
    have hrest : ∀ x ∈ rest, x < 256 := fun x hx => h x (List.mem_cons_of_mem _ hx)
    have hstep := freqIncr_count l c k hc hinv
    have hMAXl := freqCount_le_MAX hinv k
    have hMAXc := freqCount_le_MAX hinv c
    rw [List.foldl_cons, ih (freqIncr l c) k hrest (freqIncr_inv l c hc hinv), hstep]
    by_cases hkc : k = c
    · subst hkc
      simp only [eq_self_iff_true, if_true, List.count_cons_self]
      by_cases hlt : freqCount l k < MAX_FREQ
      · rw [if_pos hlt]; omega
      · rw [if_neg hlt]; omega
    · rw [if_neg hkc, List.count_cons_of_ne (fun h => hkc h)]

/-- `calculateFrequencies` produces a well-formed table. -/
lemma calculateFrequencies_inv (text : List Nat) (h : ∀ x ∈ text, x < 256) :
    FreqInv (calculateFrequencies text) :=
  foldl_freqIncr_inv text [] h ⟨List.Pairwise.nil, by simp⟩

/-- The recorded count of every byte is its occurrence count clamped at
`MAX_FREQ`. -/
lemma calculateFrequencies_count (text : List Nat) (k : Nat)
    (h : ∀ x ∈ text, x < 256) :
    freqCount (calculateFrequencies text) k = min (text.count k) MAX_FREQ := by
  have := foldl_freqIncr_count text [] k h ⟨List.Pairwise.nil, by simp⟩
  simpa [freqCount, calculateFrequencies] using this

/-- The table's keys are exactly the distinct bytes of the input. -/
lemma calculateFrequencies_mem (text : List Nat) (k : Nat)
    (h : ∀ x ∈ text, x < 256) :
    k ∈ (calculateFrequencies text).map Prod.fst ↔ k ∈ text := by
  have hinv := calculateFrequencies_inv text h
  rw [← freqCount_ne_zero_iff (fun p hp => (hinv.2 p hp).2.1) k,
    calculateFrequencies_count text k h]
  have : 0 < MAX_FREQ := by decide
  rw [← List.count_pos_iff]
  omega

/-- One counter step grows the total at most by one. -/
lemma freqIncr_sum (l : List (Nat × Nat)) (b : Nat) :
    sumCounts (freqIncr l b) ≤ sumCounts l + 1 := by
  induction l with
  | nil => simp [freqIncr, sumCounts]
  | cons hd tl ih =>
    obtain ⟨k0, c0⟩ := hd
    by_cases h1 : charKey b < charKey k0
    · simp [freqIncr, if_pos h1, sumCounts]
      omega
    · by_cases h2 : charKey b = charKey k0
      · simp only [freqIncr, if_neg h1, if_pos h2, if_true]
        by_cases hc : c0 < MAX_FREQ
        · simp only [if_pos hc, sumCounts, List.map_cons, List.sum_cons]
          omega
        · simp only [if_neg hc, sumCounts, List.map_cons, List.sum_cons]
          omega
      · simp only [freqIncr, if_neg h1, if_neg h2, sumCounts, List.map_cons,
          List.sum_cons] at *
        omega

/-- The grand total of recorded counts is at most the input length. -/
lemma foldl_freqIncr_sum (text : List Nat) : ∀ l,
    sumCounts (text.foldl freqIncr l) ≤ sumCounts l + text.length := by
  induction text with
  | nil => intro l; simp
  | cons c rest ih =>
    intro l
    have h1 := freqIncr_sum l c
    have h2 := ih (freqIncr l c)
    simp only [List.foldl_cons, List.length_cons]
    omega

lemma calculateFrequencies_sum (text : List Nat) :
    sumCounts (calculateFrequencies text) ≤ text.length := by
  have := foldl_freqIncr_sum text []
  simpa [calculateFrequencies, sumCounts] using this

/-- `freqTotal` (the `uint32_t` accumulation) agrees with the exact sum
when the latter fits in 32 bits. -/
lemma freqTotal_eq_sum (l : List (Nat × Nat)) (h : sumCounts l < U32) :
    freqTotal l = sumCounts l := by
  suffices H : ∀ (l : List (Nat × Nat)) (t : Nat), t + sumCounts l < U32 →
      l.foldl (fun t p => (t + p.2) % U32) t = t + sumCounts l by
    simpa [freqTotal] using H l 0 (by omega)
  intro l
  induction l with
  | nil => intro t _; simp [sumCounts]
  | cons hd tl ih =>
    intro t ht
    rw [show sumCounts (hd :: tl) = hd.2 + sumCounts tl by
      simp [sumCounts]] at ht ⊢
    simp only [List.foldl_cons]
    rw [u32_mod_id _ (by omega), ih (t + hd.2) (by omega)]
    omega

/-! ## Cumulative ranges (shared infrastructure) -/

lemma sumCounts_cons (p : Nat × Nat) (l : List (Nat × Nat)) :
    sumCounts (p :: l) = p.2 + sumCounts l := by
  simp [sumCounts]

/-- `lookupRange` on a cons cell. -/
lemma lookupRange_cons (a : Nat) (r : SymbolRange) (t : List (Nat × SymbolRange))
    (k : Nat) :
    lookupRange ((a, r) :: t) k = if a = k then r else lookupRange t k := by
  by_cases h : a = k <;> simp [lookupRange, List.find?_cons, h]

/-- Every range built by `buildCumulativeFreq` stores the grand total in
its `count` field. -/
lemma cumRanges_count_eq_total (total : Nat) : ∀ (l : List (Nat × Nat)) (cum : Nat),
    ∀ p ∈ cumRanges total l cum, p.2.count = total := by
  intro l
  induction l with
  | nil => intro cum p hp; simp [cumRanges] at hp
  | cons hd tl ih =>
    obtain ⟨k, c⟩ := hd
    intro cum p hp
    rcases List.mem_cons.1 hp with h | h
    · subst h; rfl
    · exact ih _ p h

/-- Entry bounds: each interval sits inside `[cum, cum + sumCounts l)`,
is nonempty, and stores the total. -/
lemma cumRanges_bounds : ∀ (l : List (Nat × Nat)) (total cum : Nat),
    cum + sumCounts l < U32 → (∀ p ∈ l, 1 ≤ p.2) →
    ∀ p ∈ cumRanges total l cum,
      cum ≤ p.2.low ∧ p.2.low < p.2.high ∧ p.2.high ≤ cum + sumCounts l ∧
        p.2.count = total := by
  intro l
  induction l with
  | nil => intro total cum _ _ p hp; simp [cumRanges] at hp
  | cons hd tl ih =>
    obtain ⟨k, c⟩ := hd
    intro total cum hU hpos p hp
    rw [sumCounts_cons] at hU
    have hc : 1 ≤ c := hpos (k, c) (by simp)
    have hmod : (cum + c) % U32 = cum + c := u32_mod_id _ (by omega)
    rcases List.mem_cons.1 hp with h | h
    · subst h
      simp only [hmod]
      refine ⟨le_refl _, by omega, by rw [sumCounts_cons]; omega, by trivial⟩
    · have := ih total ((cum + c) % U32) (by rw [hmod]; omega)
        (fun q hq => hpos q (List.mem_cons_of_mem _ hq)) p h
      rw [hmod] at this
      refine ⟨by omega, this.2.1, by rw [sumCounts_cons]; omega, this.2.2.2⟩

/-- Consecutive intervals abut: each `high` is the next `low`. -/
lemma cumRanges_chain (total : Nat) : ∀ (l : List (Nat × Nat)) (cum : Nat),
    (cumRanges total l cum).Chain' (fun p q => p.2.high = q.2.low) := by
  intro l
  induction l with
  | nil => intro cum; simp [cumRanges]
  | cons hd tl ih =>
    obtain ⟨k, c⟩ := hd
    intro cum
    cases tl with
    | nil => simp [cumRanges]
    | cons hd2 tl2 =>
      obtain ⟨k2, c2⟩ := hd2
      rw [show cumRanges total ((k, c) :: (k2, c2) :: tl2) cum
          = (k, ⟨cum, (cum + c) % U32, total⟩) ::
            (k2, ⟨(cum + c) % U32, ((cum + c) % U32 + c2) % U32, total⟩) ::
            cumRanges total tl2 (((cum + c) % U32 + c2) % U32) from rfl]
      refine List.chain'_cons.2 ⟨rfl, ?_⟩
      exact ih ((cum + c) % U32)

/-- The first interval starts at the initial cumulative value. -/
lemma cumRanges_head_low (total : Nat) (l : List (Nat × Nat)) (cum : Nat)
    (h : l ≠ []) :
    ((cumRanges total l cum).head?.map (fun p => p.2.low)) = some cum := by
  cases l with
  | nil => exact absurd rfl h
  | cons hd tl => obtain ⟨k, c⟩ := hd; rfl

/-- `cumRanges` of a nonempty table is nonempty. -/
lemma cumRanges_ne_nil (total : Nat) (l : List (Nat × Nat)) (cum : Nat)
    (h : l ≠ []) : cumRanges total l cum ≠ [] := by
  cases l with
  | nil => exact absurd rfl h
  | cons hd tl => obtain ⟨k, c⟩ := hd; simp [cumRanges]

/-- The last interval ends at `cum` plus the sum of all counts. -/
lemma cumRanges_last_high : ∀ (l : List (Nat × Nat)) (total cum : Nat),
    cum + sumCounts l < U32 → l ≠ [] →
    ((cumRanges total l cum).getLast?.map (fun p => p.2.high))
      = some (cum + sumCounts l) := by
  intro l
  induction l with
  | nil => intro total cum _ h; exact absurd rfl h
  | cons hd tl ih =>
    obtain ⟨k, c⟩ := hd
    intro total cum hU _
    rw [sumCounts_cons] at hU ⊢
    have hmod : (cum + c) % U32 = cum + c := u32_mod_id _ (by omega)
    cases tl with
    | nil =>
      simp [cumRanges, hmod, sumCounts]
    | cons hd2 tl2 =>
      obtain ⟨k2, c2⟩ := hd2
      have hrec := ih total ((cum + c) % U32) (by rw [hmod]; omega) (by simp)
      rw [hmod] at hrec
      rw [show cumRanges total ((k, c) :: (k2, c2) :: tl2) cum
          = (k, ⟨cum, (cum + c) % U32, total⟩) ::
            (k2, ⟨(cum + c) % U32, ((cum + c) % U32 + c2) % U32, total⟩) ::
            cumRanges total tl2 (((cum + c) % U32 + c2) % U32) from rfl,
        List.getLast?_cons_cons,
        show (k2, (⟨(cum + c) % U32, ((cum + c) % U32 + c2) % U32, total⟩
            : SymbolRange)) ::
            cumRanges total tl2 (((cum + c) % U32 + c2) % U32)
          = cumRanges total ((k2, c2) :: tl2) ((cum + c) % U32) from rfl,
        hmod, hrec]
      congr 1
      rw [sumCounts_cons]
      omega

/-- Exactly one interval contains each value below the running total. -/
lemma cumRanges_countP_one : ∀ (l : List (Nat × Nat)) (total cum v : Nat),
    cum + sumCounts l < U32 → (∀ p ∈ l, 1 ≤ p.2) →
    cum ≤ v → v < cum + sumCounts l →
    ((cumRanges total l cum).countP
      (fun p => decide (p.2.low ≤ v ∧ v < p.2.high))) = 1 := by
  intro l
  induction l with
  | nil =>
    intro total cum v _ _ h1 h2
    rw [sumCounts] at h2
    simp at h2
    omega
  | cons hd tl ih =>
    obtain ⟨k, c⟩ := hd
    intro total cum v hU hpos h1 h2
    rw [sumCounts_cons] at hU h2
    have hc : 1 ≤ c := hpos (k, c) (by simp)
    have hmod : (cum + c) % U32 = cum + c := u32_mod_id _ (by omega)
    rw [show cumRanges total ((k, c) :: tl) cum
        = (k, ⟨cum, (cum + c) % U32, total⟩) :: cumRanges total tl ((cum + c) % U32)
      from rfl, List.countP_cons]
    by_cases hv : v < cum + c
    · -- the head interval contains v; no tail interval can
      have hzero : (cumRanges total tl ((cum + c) % U32)).countP
          (fun p => decide (p.2.low ≤ v ∧ v < p.2.high)) = 0 := by
        rw [List.countP_eq_zero]
        intro p hp
        have hb := cumRanges_bounds tl total ((cum + c) % U32)
          (by rw [hmod]; omega) (fun q hq => hpos q (List.mem_cons_of_mem _ hq)) p hp
        rw [hmod] at hb
        simp only [decide_eq_true_eq, not_and]
        intro hle
        omega
      rw [hzero]
      simp only [hmod, decide_eq_true_eq]
      rw [if_pos ⟨h1, hv⟩]
    · -- v lies beyond the head interval
      have := ih total ((cum + c) % U32) v (by rw [hmod]; omega)
        (fun q hq => hpos q (List.mem_cons_of_mem _ hq))
        (by rw [hmod]; omega) (by rw [hmod]; omega)
      rw [this]
      simp only [hmod, decide_eq_true_eq]
      rw [if_neg (fun h => hv h.2)]

/-- The range looked up for a key present in the table: the interval of
width the recorded count, inside `[cum, cum + sumCounts l)`, with the
grand total in `count`. -/
lemma lookupRange_cumRanges : ∀ (l : List (Nat × Nat)) (total cum k c : Nat),
    ((l.map (fun p => charKey p.1)).Pairwise (· < ·)) →
    cum + sumCounts l < U32 → (k, c) ∈ l →
    ∃ lo, lookupRange (cumRanges total l cum) k = ⟨lo, lo + c, total⟩ ∧
      cum ≤ lo ∧ lo + c ≤ cum + sumCounts l := by
  intro l
  induction l with
  | nil => intro total cum k c _ _ h; simp at h
  | cons hd tl ih =>
    obtain ⟨k0, c0⟩ := hd
    intro total cum k c hpw hU hmem
    rw [sumCounts_cons] at hU
    have hmod : (cum + c0) % U32 = cum + c0 := u32_mod_id _ (by omega)
    rcases List.mem_cons.1 hmem with h | h
    · injection h with hk hc
      subst hk
      subst hc
      refine ⟨cum, ?_, le_refl _, by rw [sumCounts_cons]; omega⟩
      rw [show cumRanges total ((k, c) :: tl) cum
          = (k, ⟨cum, (cum + c) % U32, total⟩) :: cumRanges total tl ((cum + c) % U32)
        from rfl, lookupRange_cons, if_pos rfl, hmod]
    · have hlt : charKey k0 < charKey k := by
        simpa using head_lt_tail_keys hpw (k, c) h
      have hne : ¬ k0 = k := fun he => by rw [he] at hlt; omega
      have htlpw : (tl.map (fun p => charKey p.1)).Pairwise (· < ·) :=
        (List.pairwise_cons.1 (by simpa using hpw)).2
      obtain ⟨lo, heq, hlo, hhi⟩ := ih total ((cum + c0) % U32) k c htlpw
        (by rw [hmod]; omega) h
      rw [hmod] at hlo hhi
      refine ⟨lo, ?_, by omega, by rw [sumCounts_cons]; omega⟩
      rw [show cumRanges total ((k0, c0) :: tl) cum
          = (k0, ⟨cum, (cum + c0) % U32, total⟩) ::
            cumRanges total tl ((cum + c0) % U32) from rfl,
        lookupRange_cons, if_neg hne, heq]

/-! ## Renormalisation and narrowing bounds -/

lemma FIRST_QTR_val : FIRST_QTR = 16384 := rfl

lemma HALF_val : HALF = 32768 := rfl

lemma THIRD_QTR_val : THIRD_QTR = 49152 := rfl

lemma TOP_val : TOP = 65535 := rfl

lemma U32_val : U32 = 4294967296 := rfl

/-- A good state's working interval spans more than a quarter. -/
lemma good_range {st : EncSt} (hg : GoodSt st) :
    FIRST_QTR + 2 ≤ st.high + 1 - st.low := by
  obtain ⟨h1, h2, h3, h4, h5⟩ := hg
  simp only [condE1, condE2, condE3, not_and, not_lt] at h3 h4 h5
  rcases lt_or_le st.low FIRST_QTR with h | h
  · simp only [FIRST_QTR_val, HALF_val, TOP_val] at *
    omega
  · have := h5 h
    simp only [FIRST_QTR_val, HALF_val, THIRD_QTR_val, TOP_val] at *
    omega

/-- From any in-range state the fuelled renormalisation loop reaches a
state where none of E1/E2/E3 holds (the interval doubles every
iteration, so fuel beyond `log2 HALF` is never exhausted). -/
lemma renormE_exits : ∀ (fuel : Nat) (st : EncSt), st.low ≤ st.high →
    st.high ≤ TOP → HALF < 2 ^ fuel * (st.high + 1 - st.low) →
    GoodSt (renormE fuel st) := by
  intro fuel
  induction fuel with
  | zero =>
    intro st h1 h2 h3
    rw [pow_zero, one_mul] at h3
    rw [show renormE 0 st = st from rfl]
    refine ⟨h1, h2, ?_, ?_, ?_⟩ <;>
      simp only [condE1, condE2, condE3, not_and, not_lt,
        FIRST_QTR_val, HALF_val, THIRD_QTR_val, TOP_val] at * <;>
      omega
  | succ fuel ih =>
    intro st h1 h2 h3
    obtain ⟨low, high, pending, bits⟩ := st
    simp only at h1 h2 h3 ⊢
    have hpow : 2 ^ (fuel + 1) * (high + 1 - low)
        = 2 ^ fuel * (2 * (high + 1 - low)) := by ring
    rw [hpow] at h3
    by_cases hE1 : condE1 ⟨low, high, pending, bits⟩
    · have hhb : high < HALF := hE1
      simp only at hhb
      rw [renormE, if_pos hE1]
      have e1 : low * 2 % U32 = low * 2 :=
        u32_mod_id _ (by simp only [HALF_val, U32_val] at *; omega)
      have e2 : (high * 2 + 1) % U32 = high * 2 + 1 :=
        u32_mod_id _ (by simp only [HALF_val, U32_val] at *; omega)
      refine ih _ ?_ ?_ ?_
      · simp only [e1, e2]; omega
      · simp only [e2, TOP_val, HALF_val] at *; omega
      · simp only [e1, e2]
        have harg : high * 2 + 1 + 1 - low * 2 = 2 * (high + 1 - low) := by omega
        rw [harg]; exact h3
    · by_cases hE2 : condE2 ⟨low, high, pending, bits⟩
      · have hlb : HALF ≤ low := hE2
        have hhb : HALF ≤ high := by
          simpa [condE1, not_lt] using hE1
        simp only at hlb
        rw [renormE, if_neg hE1, if_pos hE2]
        have e1 : (low - HALF) * 2 % U32 = (low - HALF) * 2 :=
          u32_mod_id _ (by simp only [HALF_val, TOP_val, U32_val] at *; omega)
        have e2 : ((high - HALF) * 2 + 1) % U32 = (high - HALF) * 2 + 1 :=
          u32_mod_id _ (by simp only [HALF_val, TOP_val, U32_val] at *; omega)
        refine ih _ ?_ ?_ ?_
        · simp only [e1, e2]
          simp only [HALF_val] at *
          omega
        · simp only [e2]
          simp only [HALF_val, TOP_val] at *
          omega
        · simp only [e1, e2]
          have harg : (high - HALF) * 2 + 1 + 1 - (low - HALF) * 2
              = 2 * (high + 1 - low) := by
            simp only [HALF_val] at *
            omega
          rw [harg]; exact h3
      · by_cases hE3 : condE3 ⟨low, high, pending, bits⟩
        · have hlb : FIRST_QTR ≤ low := hE3.1
          have hhb : high < THIRD_QTR := hE3.2
          have hhb2 : HALF ≤ high := by
            simpa [condE1, not_lt] using hE1
          simp only at hlb hhb
          rw [renormE, if_neg hE1, if_neg hE2, if_pos hE3]
          have e1 : (low - FIRST_QTR) * 2 % U32 = (low - FIRST_QTR) * 2 :=
            u32_mod_id _
              (by simp only [FIRST_QTR_val, THIRD_QTR_val, U32_val] at *; omega)
          have e2 : ((high - FIRST_QTR) * 2 + 1) % U32
              = (high - FIRST_QTR) * 2 + 1 :=
            u32_mod_id _
              (by simp only [FIRST_QTR_val, THIRD_QTR_val, U32_val] at *; omega)
          refine ih _ ?_ ?_ ?_
          · simp only [e1, e2]
            simp only [FIRST_QTR_val, HALF_val] at *
            omega
          · simp only [e2]
            simp only [FIRST_QTR_val, THIRD_QTR_val, HALF_val, TOP_val] at *
            omega
          · simp only [e1, e2]
            have harg : (high - FIRST_QTR) * 2 + 1 + 1 - (low - FIRST_QTR) * 2
                = 2 * (high + 1 - low) := by
              simp only [FIRST_QTR_val, HALF_val] at *
              omega
            rw [harg]; exact h3
        · rw [renormE, if_neg hE1, if_neg hE2, if_neg hE3]
          exact ⟨h1, h2, hE1, hE2, hE3⟩

/-- Bounds of the narrowing step: from a good state and a valid symbol
range over a total of at most `FIRST_QTR + 2`, the new interval nests
inside the old one with `low ≤ high` (equality possible), and the
pending bits and emitted output are untouched. -/
lemma narrow_bounds (st : EncSt) (r : SymbolRange) (total : Nat)
    (hg : GoodSt st) (htot : total ≤ FIRST_QTR + 2) (h1 : r.low < r.high)
    (h2 : r.high ≤ total) (h3 : r.count = total) :
    st.low ≤ (narrow st r).low ∧ (narrow st r).low ≤ (narrow st r).high ∧
      (narrow st r).high ≤ st.high ∧ (narrow st r).pending = st.pending ∧
      (narrow st r).bitsRev = st.bitsRev := by
  have hrange := good_range hg
  obtain ⟨hlh, hht, _, _, _⟩ := hg
  have hht65 : st.high ≤ 65535 := by rw [TOP_val] at hht; exact hht
  have hrange16 : 16386 ≤ st.high + 1 - st.low := by
    rw [FIRST_QTR_val] at hrange; omega
  have htot16 : total ≤ 16386 := by rw [FIRST_QTR_val] at htot; omega
  have htpos : 0 < total := by omega
  have hr_le : st.high + 1 - st.low ≤ 65536 := by omega
  have hrange_mod : (st.high + U32 + 1 - st.low) % U32 = st.high + 1 - st.low := by
    have h : st.high + U32 + 1 - st.low = st.high + 1 + U32 - st.low := by omega
    rw [h]
    exact wrap_sub (st.high + 1) st.low (by omega) (by rw [U32_val]; omega)
  have hprod_hi : (st.high + 1 - st.low) * r.high < 4294967296 := by
    have h4 : (st.high + 1 - st.low) * r.high ≤ 65536 * 16386 :=
      Nat.mul_le_mul hr_le (le_trans h2 htot16)
    omega
  have hprod_lo : (st.high + 1 - st.low) * r.low < 4294967296 :=
    lt_of_le_of_lt (Nat.mul_le_mul_left _ (le_of_lt h1)) hprod_hi
  have hth_ge : (st.high + 1 - st.low) * r.low / total + 1
      ≤ (st.high + 1 - st.low) * r.high / total := by
    have hstep : (st.high + 1 - st.low) * r.low + total
        ≤ (st.high + 1 - st.low) * r.high := by
      have h5 : (st.high + 1 - st.low) * (r.low + 1)
          ≤ (st.high + 1 - st.low) * r.high :=
        Nat.mul_le_mul_left _ h1
      have h6 : (st.high + 1 - st.low) * (r.low + 1)
          = (st.high + 1 - st.low) * r.low + (st.high + 1 - st.low) := by ring
      omega
    have h5 := Nat.div_le_div_right (c := total) hstep
    rw [Nat.add_div_right _ htpos] at h5
    exact h5
  have hth_le : (st.high + 1 - st.low) * r.high / total
      ≤ st.high + 1 - st.low := by
    have h5 : (st.high + 1 - st.low) * r.high ≤ (st.high + 1 - st.low) * total :=
      Nat.mul_le_mul_left _ h2
    have h6 := Nat.div_le_div_right (c := total) h5
    rwa [Nat.mul_div_cancel _ htpos] at h6
  have hth_pos : 1 ≤ (st.high + 1 - st.low) * r.high / total :=
    le_trans (Nat.le_add_left 1 _) hth_ge
  have hsum_hi : st.low + (st.high + 1 - st.low) * r.high / total < U32 := by
    have h8 : st.low + (st.high + 1 - st.low) * r.high / total ≤ 65535 + 65536 :=
      Nat.add_le_add (le_trans hlh hht65) (le_trans hth_le hr_le)
    rw [U32_val]
    omega
  have hsub1 : st.low + (st.high + 1 - st.low) * r.high / total - 1 < U32 :=
    lt_of_le_of_lt (Nat.sub_le _ 1) hsum_hi
  have htl_le : (st.high + 1 - st.low) * r.low / total
      ≤ (st.high + 1 - st.low) * r.high / total :=
    le_trans (Nat.le_succ _) hth_ge
  have hsum_lo : st.low + (st.high + 1 - st.low) * r.low / total < U32 :=
    lt_of_le_of_lt (Nat.add_le_add_left htl_le _) hsum_hi
  have hnh : (narrow st r).high
      = st.low + (st.high + 1 - st.low) * r.high / total - 1 := by
    simp only [narrow, hrange_mod, h3]
    rw [u32_mod_id ((st.high + 1 - st.low) * r.high) hprod_hi]
    rw [u32_mod_id (st.low + (st.high + 1 - st.low) * r.high / total) hsum_hi]
    exact wrap_sub _ 1 (by omega) hsub1
  have hnl : (narrow st r).low
      = st.low + (st.high + 1 - st.low) * r.low / total := by
    simp only [narrow, hrange_mod, h3]
    rw [u32_mod_id ((st.high + 1 - st.low) * r.low) hprod_lo]
    exact u32_mod_id _ hsum_lo
  have key : ∀ TH TL : Nat, (narrow st r).high = st.low + TH - 1 →
      (narrow st r).low = st.low + TL → TL + 1 ≤ TH →
      TH ≤ st.high + 1 - st.low →
      st.low ≤ (narrow st r).low ∧ (narrow st r).low ≤ (narrow st r).high ∧
        (narrow st r).high ≤ st.high := by
    intro TH TL e1 e2 l1 l2
    omega
  obtain ⟨g1, g2, g3⟩ := key _ _ hnh hnl hth_ge hth_le
  exact ⟨g1, g2, g3, rfl, rfl⟩

/-- The initial coder state is good. -/
lemma goodSt_encInit : GoodSt encInit :=
  ⟨by decide, by decide, by decide, by decide, by decide⟩

/-- A key present in the table pairs with its recorded count. -/
lemma freqCount_mem_self (l : List (Nat × Nat)) (k : Nat)
    (h : k ∈ l.map Prod.fst) : (k, freqCount l k) ∈ l := by
  obtain ⟨q, hq, hqk⟩ := List.mem_map.1 h
  have hsome : (l.find? (fun p => p.1 = k)).isSome := by
    rw [List.find?_isSome]
    exact ⟨q, hq, by simp [hqk]⟩
  obtain ⟨p, hfind⟩ := Option.isSome_iff_exists.1 hsome
  have hmem := List.mem_of_find?_eq_some hfind
  have hpk : p.1 = k := by simpa using List.find?_some hfind
  have hcnt : freqCount l k = p.2 := by simp [freqCount, hfind]
  rw [hcnt, ← hpk, Prod.mk.eta]
  exact hmem

/-- All per-step checks pass along the encoder run, provided every
symbol's range is valid for the shared total and the total is at most
`FIRST_QTR + 2`. -/
lemma encStepsOk_of_valid : ∀ (text : List Nat) (ranges : List (Nat × SymbolRange))
    (total : Nat) (st : EncSt), GoodSt st → total ≤ FIRST_QTR + 2 →
    (∀ c ∈ text, ∃ lo cnt, lookupRange ranges c = ⟨lo, lo + cnt, total⟩ ∧
      1 ≤ cnt ∧ lo + cnt ≤ total) →
    encStepsOk ranges text st = true := by
  intro text
  induction text with
  | nil => intros; rfl
  | cons c cs ih =>
    intro ranges total st hg htot hr
    obtain ⟨lo, cnt, hlook, hcnt, hle⟩ := hr c (by simp)
    have hb1 : (lookupRange ranges c).low < (lookupRange ranges c).high := by
      rw [hlook]; simpa using by omega
    have hb2 : (lookupRange ranges c).high ≤ total := by
      rw [hlook]; simpa using hle
    have hb3 : (lookupRange ranges c).count = total := by rw [hlook]
    have hnb := narrow_bounds st (lookupRange ranges c) total hg htot hb1 hb2 hb3
    have hst2 : GoodSt (renormE renormFuel (narrow st (lookupRange ranges c))) := by
      apply renormE_exits
      · exact hnb.2.1
      · exact le_trans hnb.2.2.1 hg.2.1
      · have h1 : 1 ≤ (narrow st (lookupRange ranges c)).high + 1
            - (narrow st (lookupRange ranges c)).low := by
          have := hnb.2.1
          omega
        calc HALF < 2 ^ renormFuel * 1 := by decide
        _ ≤ 2 ^ renormFuel * ((narrow st (lookupRange ranges c)).high + 1
            - (narrow st (lookupRange ranges c)).low) :=
          Nat.mul_le_mul_left _ h1
    simp only [encStepsOk]
    rw [Bool.and_eq_true]
    constructor
    · have hstrict : (renormE renormFuel (narrow st (lookupRange ranges c))).low
          < (renormE renormFuel (narrow st (lookupRange ranges c))).high := by
        have := good_range hst2
        rw [FIRST_QTR_val] at this
        omega
      obtain ⟨_, _, hC, hD, hE⟩ := hst2
      simp only [encStepOk, Bool.and_eq_true, decide_eq_true_eq,
        Bool.not_eq_true', decide_eq_false_iff_not]
      exact ⟨⟨⟨⟨hnb.2.1, hstrict⟩, hC⟩, hD⟩, hE⟩
    · exact ih ranges total _ hst2 htot
        (fun x hx => hr x (List.mem_cons_of_mem _ hx))

/-- The pipeline form: on byte input of length at most `FIRST_QTR + 2`,
every per-symbol check of the encoder run passes. -/
lemma encodeStepsOkAll_true (text : List Nat) (hb : ∀ x ∈ text, x < 256)
    (hlen : text.length ≤ FIRST_QTR + 2) : encodeStepsOkAll text = true := by
  have hinv := calculateFrequencies_inv text hb
  have hsum := calculateFrequencies_sum text
  have hsumU : sumCounts (calculateFrequencies text) < U32 := by
    rw [U32_val]
    rw [FIRST_QTR_val] at hlen
    omega
  have htoteq : freqTotal (calculateFrequencies text)
      = sumCounts (calculateFrequencies text) :=
    freqTotal_eq_sum _ hsumU
  unfold encodeStepsOkAll
  apply encStepsOk_of_valid text _ (freqTotal (calculateFrequencies text))
    encInit goodSt_encInit
  · rw [htoteq]; omega
  · intro c hc
    have hmem : c ∈ (calculateFrequencies text).map Prod.fst :=
      (calculateFrequencies_mem text c hb).2 hc
    have hpair := freqCount_mem_self _ c hmem
    have hcnt1 : 1 ≤ freqCount (calculateFrequencies text) c :=
      (hinv.2 _ hpair).2.1
    obtain ⟨lo, hlook, hlo, hhi⟩ := lookupRange_cumRanges
      (calculateFrequencies text) (freqTotal (calculateFrequencies text)) 0 c
      (freqCount (calculateFrequencies text) c) hinv.1 (by omega) hpair
    refine ⟨lo, freqCount (calculateFrequencies text) c, ?_, hcnt1, ?_⟩
    · exact hlook
    · rw [htoteq]; omega

/-! ## Source encoder vs spec-side encoder -/

/-- The pending-bit emission loop emits exactly a block of `n` copies. -/
lemma pushPending_eq : ∀ (n : Nat) (b : Bool) (acc : List Bool),
    pushPending n b acc = List.replicate n b ++ acc := by
  intro n
  induction n with
  | zero => intros; rfl
  | succ m ih =>
    intro b acc
    rw [pushPending, ih, List.replicate_succ', List.append_assoc]
    rfl

/-- `cumRanges` preserves the key list. -/
lemma cumRanges_keys (total : Nat) : ∀ (l : List (Nat × Nat)) (cum : Nat),
    (cumRanges total l cum).map Prod.fst = l.map Prod.fst := by
  intro l
  induction l with
  | nil => intro cum; rfl
  | cons hd tl ih =>
    obtain ⟨k, c⟩ := hd
    intro cum
    simp only [cumRanges, List.map_cons, ih]

/-- Looking up any present key yields a range carrying the shared
total in its `count` field. -/
lemma lookupRange_count (ranges : List (Nat × SymbolRange)) (total c : Nat)
    (hall : ∀ p ∈ ranges, p.2.count = total)
    (hmem : c ∈ ranges.map Prod.fst) :
    (lookupRange ranges c).count = total := by
  obtain ⟨q, hq, hqk⟩ := List.mem_map.1 hmem
  have hsome : (ranges.find? (fun p => p.1 = c)).isSome := by
    rw [List.find?_isSome]
    exact ⟨q, hq, by simp [hqk]⟩
  obtain ⟨p, hfind⟩ := Option.isSome_iff_exists.1 hsome
  have hmem2 := List.mem_of_find?_eq_some hfind
  simp only [lookupRange, hfind, Option.map_some', Option.getD_some]
  exact hall p hmem2

/-- The renormalisation loops of the source encoder and the spec-side
encoder move in lockstep: same bounds and pending count, and the
reversed accumulator mirrors the in-order spec output. -/
lemma renormE_specRenorm : ∀ (fuel : Nat) (st : EncSt) (sst : SpecSt),
    st.low = sst.low → st.high = sst.high → st.pending = sst.pending →
    st.bitsRev = sst.bits.reverse →
    (renormE fuel st).low = (specRenorm fuel sst).low ∧
    (renormE fuel st).high = (specRenorm fuel sst).high ∧
    (renormE fuel st).pending = (specRenorm fuel sst).pending ∧
    (renormE fuel st).bitsRev = (specRenorm fuel sst).bits.reverse := by
  intro fuel
  induction fuel with
  | zero => intro st sst h1 h2 h3 h4; exact ⟨h1, h2, h3, h4⟩
  | succ f ih =>
    intro st sst h1 h2 h3 h4
    by_cases hE1 : condE1 st
    · have hE1s : sst.high < HALF := by rw [← h2]; exact hE1
      rw [renormE, if_pos hE1, specRenorm, if_pos hE1s]
      apply ih
      · simp only [h1]
      · simp only [h2]
      · rfl
      · rw [pushPending_eq, h3, h4]
        simp [List.reverse_append, List.reverse_cons, List.reverse_replicate,
          List.append_assoc]
    · have hE1s : ¬ sst.high < HALF := by rw [← h2]; exact hE1
      by_cases hE2 : condE2 st
      · have hE2s : HALF ≤ sst.low := by rw [← h1]; exact hE2
        rw [renormE, if_neg hE1, if_pos hE2, specRenorm, if_neg hE1s, if_pos hE2s]
        apply ih
        · simp only [h1]
        · simp only [h2]
        · rfl
        · rw [pushPending_eq, h3, h4]
          simp [List.reverse_append, List.reverse_cons, List.reverse_replicate,
            List.append_assoc]
      · have hE2s : ¬ HALF ≤ sst.low := by rw [← h1]; exact hE2
        by_cases hE3 : condE3 st
        · have hE3s : FIRST_QTR ≤ sst.low ∧ sst.high < THIRD_QTR := by
            rw [← h1, ← h2]; exact hE3
          rw [renormE, if_neg hE1, if_neg hE2, if_pos hE3, specRenorm,
            if_neg hE1s, if_neg hE2s, if_pos hE3s]
          apply ih
          · simp only [h1]
          · simp only [h2]
          · simp only [h3]
          · exact h4
        · have hE3s : ¬ (FIRST_QTR ≤ sst.low ∧ sst.high < THIRD_QTR) := by
            rw [← h1, ← h2]; exact hE3
          rw [renormE, if_neg hE1, if_neg hE2, if_neg hE3, specRenorm,
            if_neg hE1s, if_neg hE2s, if_neg hE3s]
          exact ⟨h1, h2, h3, h4⟩

/-- One symbol of the source encoder against one spec-side symbol step. -/
lemma encodeSym_specEncodeSym (ranges : List (Nat × SymbolRange)) (total : Nat)
    (st : EncSt) (sst : SpecSt) (c : Nat)
    (hcount : (lookupRange ranges c).count = total)
    (h1 : st.low = sst.low) (h2 : st.high = sst.high)
    (h3 : st.pending = sst.pending) (h4 : st.bitsRev = sst.bits.reverse) :
    (encodeSym ranges st c).low = (specEncodeSym ranges total sst c).low ∧
    (encodeSym ranges st c).high = (specEncodeSym ranges total sst c).high ∧
    (encodeSym ranges st c).pending = (specEncodeSym ranges total sst c).pending ∧
    (encodeSym ranges st c).bitsRev
      = (specEncodeSym ranges total sst c).bits.reverse := by
  unfold encodeSym specEncodeSym
  apply renormE_specRenorm
  · simp only [narrow, specNarrow, h1, h2, hcount]
  · simp only [narrow, specNarrow, h1, h2, hcount]
  · exact h3
  · exact h4

/-- The encoder folds move in lockstep over any symbol sequence whose
looked-up ranges all carry the shared total. -/
lemma foldl_encodeSym_rel : ∀ (text : List Nat) (ranges : List (Nat × SymbolRange))
    (total : Nat) (st : EncSt) (sst : SpecSt),
    (∀ c ∈ text, (lookupRange ranges c).count = total) →
    st.low = sst.low → st.high = sst.high → st.pending = sst.pending →
    st.bitsRev = sst.bits.reverse →
    (text.foldl (encodeSym ranges) st).low
      = (text.foldl (specEncodeSym ranges total) sst).low ∧
    (text.foldl (encodeSym ranges) st).high
      = (text.foldl (specEncodeSym ranges total) sst).high ∧
    (text.foldl (encodeSym ranges) st).pending
      = (text.foldl (specEncodeSym ranges total) sst).pending ∧
    (text.foldl (encodeSym ranges) st).bitsRev
      = (text.foldl (specEncodeSym ranges total) sst).bits.reverse := by
  intro text
  induction text with
  | nil => intro ranges total st sst _ h1 h2 h3 h4; exact ⟨h1, h2, h3, h4⟩
  | cons c cs ih =>
    intro ranges total st sst hcnt h1 h2 h3 h4
    obtain ⟨e1, e2, e3, e4⟩ := encodeSym_specEncodeSym ranges total st sst c
      (hcnt c (by simp)) h1 h2 h3 h4
    simp only [List.foldl_cons]
    exact ih ranges total _ _ (fun x hx => hcnt x (List.mem_cons_of_mem _ hx))
      e1 e2 e3 e4

/-- The full emitted bit sequences agree: the source encoder (reversed
accumulator, decrement-loop pending emission) produces exactly the
spec-side sequence. -/
lemma encodeBits_eq_spec (text : List Nat) (hb : ∀ x ∈ text, x < 256) :
    encodeBits text = specEncodeBits text := by
  have hcnt : ∀ c ∈ text,
      (lookupRange (buildCumulativeFreq (calculateFrequencies text)).1 c).count
        = (buildCumulativeFreq (calculateFrequencies text)).2 := by
    intro c hc
    apply lookupRange_count
    · exact cumRanges_count_eq_total _ _ _
    · have hkeys : ((buildCumulativeFreq (calculateFrequencies text)).1).map Prod.fst
          = (calculateFrequencies text).map Prod.fst := by
        simp only [buildCumulativeFreq]
        exact cumRanges_keys _ _ _
      rw [hkeys]
      exact (calculateFrequencies_mem text c hb).2 hc
  obtain ⟨e1, e2, e3, e4⟩ := foldl_encodeSym_rel text
    (buildCumulativeFreq (calculateFrequencies text)).1
    (buildCumulativeFreq (calculateFrequencies text)).2
    encInit ⟨0, TOP, 0, []⟩ hcnt rfl rfl rfl rfl
  simp only [encodeBits, specEncodeBits, finalizeBits, specFinalize]
  by_cases hf : (text.foldl
      (encodeSym (buildCumulativeFreq (calculateFrequencies text)).1) encInit).low
      < FIRST_QTR
  · have hfs : (text.foldl (specEncodeSym
        (buildCumulativeFreq (calculateFrequencies text)).1
        (buildCumulativeFreq (calculateFrequencies text)).2)
        ⟨0, TOP, 0, []⟩).low < FIRST_QTR := by rw [← e1]; exact hf
    rw [if_pos hf, if_pos hfs, pushPending_eq, e3, e4]
    simp [List.reverse_append, List.reverse_cons, List.reverse_replicate,
      List.append_assoc]
  · have hfs : ¬ (text.foldl (specEncodeSym
        (buildCumulativeFreq (calculateFrequencies text)).1
        (buildCumulativeFreq (calculateFrequencies text)).2)
        ⟨0, TOP, 0, []⟩).low < FIRST_QTR := by rw [← e1]; exact hf
    rw [if_neg hf, if_neg hfs, pushPending_eq, e3, e4]
    simp [List.reverse_append, List.reverse_cons, List.reverse_replicate,
      List.append_assoc]

/-! ## Bit packing round-trip -/

lemma unpackBytes_nil : unpackBytes [] = [] := rfl

lemma unpackBytes_cons (b : Nat) (bs : List Nat) :
    unpackBytes (b :: bs) = unpackByte b ++ unpackBytes bs := by
  simp [unpackBytes]

/-- The flushed padded byte unpacks to the accumulator's bits followed by
zero padding. -/
lemma unpackByte_padded (cnt : Nat) (acc : Nat) (h1 : 1 ≤ cnt) (h2 : cnt < 8)
    (h3 : acc < 2 ^ cnt) :
    unpackByte (acc * 2 ^ (8 - cnt) % 256)
      = bitsOfAcc acc cnt ++ List.replicate (8 - cnt) false := by
  interval_cases cnt <;> (revert acc; decide)

/-- A full byte (7 accumulated bits plus the incoming one) unpacks to
those bits in order. -/
lemma unpackByte_full (acc : Nat) (b : Bool) (h : acc < 128) :
    unpackByte ((acc * 2 + (if b then 1 else 0)) % 256)
      = bitsOfAcc acc 7 ++ [b] := by
  cases b <;> (revert acc; decide)

/-- Shifting one bit into the accumulator appends it to the bit view. -/
lemma bitsOfAcc_snoc (cnt : Nat) (acc : Nat) (b : Bool) (h2 : cnt < 8)
    (h3 : acc < 2 ^ cnt) :
    bitsOfAcc ((acc * 2 + (if b then 1 else 0)) % 256) (cnt + 1)
      = bitsOfAcc acc cnt ++ [b] := by
  interval_cases cnt <;> cases b <;> (revert acc; decide)

/-- Unpacking the packed bytes yields the accumulated bits, the input
bits, and the zero right-padding of the final partial byte. -/
lemma unpack_pack : ∀ (bits : List Bool) (acc cnt : Nat), cnt < 8 →
    acc < 2 ^ cnt →
    unpackBytes (packBits bits acc cnt)
      = bitsOfAcc acc cnt ++ bits ++
        List.replicate ((8 - (cnt + bits.length) % 8) % 8) false := by
  intro bits
  induction bits with
  | nil =>
    intro acc cnt h2 h3
    match cnt, h2 with
    | 0, _ =>
      have : acc = 0 := by omega
      subst this
      decide
    | (n + 1), h2 =>
      rw [show packBits [] acc (n + 1) = [acc * 2 ^ (8 - (n + 1)) % 256] from rfl]
      rw [unpackBytes_cons, unpackBytes_nil, List.append_nil]
      rw [unpackByte_padded (n + 1) acc (by omega) h2 h3]
      have hpad : (8 - (n + 1 + ([] : List Bool).length) % 8) % 8 = 8 - (n + 1) := by
        simp only [List.length_nil, Nat.add_zero]
        omega
      rw [hpad, List.append_nil]
  | cons b bs ih =>
    intro acc cnt h2 h3
    have hacc2 : acc * 2 + (if b then 1 else 0) < 2 ^ (cnt + 1) := by
      have : (if b then 1 else 0) ≤ 1 := by cases b <;> decide
      have h4 : 2 ^ (cnt + 1) = 2 ^ cnt * 2 := by ring
      omega
    have h256 : acc * 2 + (if b then 1 else 0) < 256 := by
      have h5 : 2 ^ (cnt + 1) ≤ 2 ^ 8 := Nat.pow_le_pow_right (by omega) (by omega)
      have h6 : (2 : Nat) ^ 8 = 256 := by decide
      omega
    have hmod : (acc * 2 + (if b then 1 else 0)) % 256
        = acc * 2 + (if b then 1 else 0) := Nat.mod_eq_of_lt h256
    by_cases hfull : cnt + 1 = 8
    · have hcnt7 : cnt = 7 := by omega
      subst hcnt7
      rw [show packBits (b :: bs) acc 7
          = (acc * 2 + (if b then 1 else 0)) % 256 :: packBits bs 0 0 from rfl]
      rw [unpackBytes_cons, ih 0 0 (by decide) (by decide)]
      rw [unpackByte_full acc b (by omega)]
      have hpad : (8 - (0 + bs.length) % 8) % 8 = (8 - (7 + (b :: bs).length) % 8) % 8 := by
        simp only [List.length_cons, Nat.zero_add]
        omega
      rw [hpad]
      simp [bitsOfAcc, List.append_assoc]
    · rw [show packBits (b :: bs) acc cnt
          = if cnt + 1 = 8 then ((acc * 2 + (if b then 1 else 0)) % 256)
              :: packBits bs 0 0
            else packBits bs ((acc * 2 + (if b then 1 else 0)) % 256) (cnt + 1)
        from rfl, if_neg hfull]
      rw [ih ((acc * 2 + (if b then 1 else 0)) % 256) (cnt + 1) (by omega)
        (by rw [hmod]; exact hacc2)]
      rw [bitsOfAcc_snoc cnt acc b (by omega) h3]
      have hpad : (8 - (cnt + 1 + bs.length) % 8) % 8
          = (8 - (cnt + (b :: bs).length) % 8) % 8 := by
        simp only [List.length_cons]
        omega
      rw [hpad]
      simp [List.append_assoc]

/-- Unpacking the full pack of a bit sequence: the bits then the
padding. -/
lemma unpack_pack_zero (bits : List Bool) :
    unpackBytes (packBits bits 0 0)
      = bits ++ List.replicate ((8 - bits.length % 8) % 8) false := by
  have := unpack_pack bits 0 0 (by decide) (by decide)
  simpa [bitsOfAcc] using this

/-- Four little-endian bytes decode back to the encoded value. -/
lemma de32_le32 (n : Nat) (h : n < U32) :
    de32 (n % 256) (n / 256 % 256) (n / 65536 % 256) (n / 16777216 % 256) = n := by
  rw [U32_val] at h
  unfold de32
  omega

/-- Bit sink / bit source round-trip. -/
lemma readBitVector_writeBitVector (bits : List Bool) (h : bits.length < U32) :
    readBitVector (writeBitVector bits) = some bits := by
  unfold writeBitVector le32
  simp only [List.cons_append, List.nil_append, readBitVector]
  rw [u32_mod_id bits.length h]
  rw [de32_le32 bits.length h]
  unfold readBitsCounted
  rw [unpack_pack_zero]
  rw [List.take_left' rfl]

/-! ## Decoder totality and container parsing -/

/-- The decoding loop always yields exactly the requested number of
symbols: no step can fail or stop early. -/
lemma decodeLoop_length (ranges : List (Nat × SymbolRange)) (total : Nat) :
    ∀ (n : Nat) (st : DecSt) (acc : List Nat),
    (decodeLoop ranges total n st acc).length = n + acc.length := by
  intro n
  induction n with
  | zero => intro st acc; simp [decodeLoop]
  | succ m ih =>
    intro st acc
    rw [decodeLoop]
    rw [ih]
    simp only [List.length_cons]
    omega

/-- The decoder core always produces exactly `text_size` bytes. -/
lemma decompressCore_length (freq : List (Nat × Nat)) (text_size : Nat)
    (bits : List Bool) :
    (decompressCore freq text_size bits).length = text_size := by
  unfold decompressCore
  rw [decodeLoop_length]
  rfl

/-- With no matching interval, the decoder's scan falls back to the
symbol 0 (`char symbol = 0;`). -/
lemma scanSymbol_unmatched (ranges : List (Nat × SymbolRange)) (scaled : Nat)
    (h : hasMatch ranges scaled = false) : scanSymbol ranges scaled = 0 := by
  unfold scanSymbol
  have hnone : ranges.find?
      (fun p => decide (p.2.low ≤ scaled ∧ scaled < p.2.high)) = none := by
    rw [List.find?_eq_none]
    intro p hp
    simp only [hasMatch, List.any_eq_false] at h
    simpa using h p hp
  rw [hnone]

/-- Inserting a key `charKey`-above every existing key appends it. -/
lemma freqSet_append : ∀ (acc : List (Nat × Nat)) (b f : Nat),
    (∀ p ∈ acc, charKey p.1 < charKey b) →
    freqSet acc b f = acc ++ [(b, f)] := by
  intro acc
  induction acc with
  | nil => intros; rfl
  | cons hd tl ih =>
    obtain ⟨k0, c0⟩ := hd
    intro b f h
    have hk0 := h (k0, c0) (by simp)
    simp only at hk0
    rw [freqSet]
    rw [if_neg (by omega), if_neg (by omega)]
    rw [ih b f (fun p hp => h p (List.mem_cons_of_mem _ hp))]
    rfl

/-- Parsing the serialised frequency table rebuilds exactly the same
association list (so the decoder iterates the alphabet in the same order
as the encoder). -/
lemma parseFreqEntries_serialized : ∀ (freq acc : List (Nat × Nat)) (tail : List Nat),
    (∀ p ∈ freq, p.2 < U32) →
    (∀ p ∈ acc, ∀ q ∈ freq, charKey p.1 < charKey q.1) →
    ((freq.map (fun p => charKey p.1)).Pairwise (· < ·)) →
    parseFreqEntries freq.length
      ((freq.map (fun p => p.1 :: le32 p.2)).flatten ++ tail) acc
      = some (acc ++ freq, tail) := by
  intro freq
  induction freq with
  | nil => intro acc tail _ _ _; simp [parseFreqEntries]
  | cons hd tl ih =>
    obtain ⟨k, c⟩ := hd
    intro acc tail hU hacc hpw
    have hcU : c < U32 := hU (k, c) (by simp)
    rw [show ((((k, c) :: tl).map (fun p => p.1 :: le32 p.2)).flatten ++ tail)
        = k :: c % 256 :: c / 256 % 256 :: c / 65536 % 256 :: c / 16777216 % 256 ::
          ((tl.map (fun p => p.1 :: le32 p.2)).flatten ++ tail) from by
      simp [le32]]
    rw [show ((k, c) :: tl).length = tl.length + 1 from rfl]
    rw [show parseFreqEntries (tl.length + 1)
        (k :: c % 256 :: c / 256 % 256 :: c / 65536 % 256 :: c / 16777216 % 256 ::
          ((tl.map (fun p => p.1 :: le32 p.2)).flatten ++ tail)) acc
        = parseFreqEntries tl.length
          ((tl.map (fun p => p.1 :: le32 p.2)).flatten ++ tail)
          (freqSet acc k
            (de32 (c % 256) (c / 256 % 256) (c / 65536 % 256) (c / 16777216 % 256)))
      from rfl]
    rw [de32_le32 c hcU]
    rw [freqSet_append acc k c (fun p hp => hacc p hp (k, c) (by simp))]
    rw [ih (acc ++ [(k, c)]) tail (fun p hp => hU p (List.mem_cons_of_mem _ hp))
      ?_ (List.pairwise_cons.1 (by simpa using hpw)).2]
    · rw [List.append_assoc]
      rfl
    · intro p hp q hq
      rcases List.mem_append.1 hp with h | h
      · exact hacc p h q (List.mem_cons_of_mem _ hq)
      · have hpk : p = (k, c) := by simpa using h
        subst hpk
        exact head_lt_tail_keys hpw q hq

/-- The bit source on a short payload: exactly the available bits, capped
at the declared count, with no error. -/
lemma readBitVector_counted (count : Nat) (rest : List Nat) (h : count < U32) :
    readBitVector (le32 count ++ rest) = some ((unpackBytes rest).take count) := by
  unfold le32
  simp only [List.cons_append, List.nil_append, readBitVector]
  rw [de32_le32 count h]
  rfl

/-- Length of the MSB-first unpacking: 8 bits per byte. -/
lemma unpackBytes_length : ∀ bytes : List Nat,
    (unpackBytes bytes).length = 8 * bytes.length := by
  intro bytes
  induction bytes with
  | nil => rfl
  | cons b bs ih =>
    rw [unpackBytes_cons, List.length_append, ih]
    simp only [unpackByte, List.length_cons, List.length_nil]
    omega

/-- A single guarded E1/E2/E3 step keeps the interval strictly ordered. -/
lemma renorm_single_step (st : EncSt) (h1 : st.low ≤ st.high)
    (h2 : st.high ≤ TOP) (h3 : condE1 st ∨ condE2 st ∨ condE3 st) :
    (renormE 1 st).low < (renormE 1 st).high := by
  obtain ⟨low, high, pending, bits⟩ := st
  simp only at h1 h2
  rw [TOP_val] at h2
  by_cases hE1 : condE1 ⟨low, high, pending, bits⟩
  · have hh : high < HALF := hE1
    simp only at hh
    rw [HALF_val] at hh
    rw [renormE, if_pos hE1]
    show low * 2 % U32 < (high * 2 + 1) % U32
    rw [u32_mod_id _ (by rw [U32_val]; omega), u32_mod_id _ (by rw [U32_val]; omega)]
    omega
  · by_cases hE2 : condE2 ⟨low, high, pending, bits⟩
    · have hl : HALF ≤ low := hE2
      simp only at hl
      rw [HALF_val] at hl
      rw [renormE, if_neg hE1, if_pos hE2]
      show (low - HALF) * 2 % U32 < ((high - HALF) * 2 + 1) % U32
      rw [HALF_val]
      rw [u32_mod_id _ (by rw [U32_val]; omega), u32_mod_id _ (by rw [U32_val]; omega)]
      omega
    · by_cases hE3 : condE3 ⟨low, high, pending, bits⟩
      · obtain ⟨hl, hh⟩ := id hE3
        simp only at hl hh
        rw [FIRST_QTR_val] at hl
        rw [THIRD_QTR_val] at hh
        rw [renormE, if_neg hE1, if_neg hE2, if_pos hE3]
        show (low - FIRST_QTR) * 2 % U32 < ((high - FIRST_QTR) * 2 + 1) % U32
        rw [FIRST_QTR_val]
        rw [u32_mod_id _ (by rw [U32_val]; omega), u32_mod_id _ (by rw [U32_val]; omega)]
        omega
      · rcases h3 with h | h | h
        · exact absurd h hE1
        · exact absurd h hE2
        · exact absurd h hE3

/-! ## The frequency table of the zero-width counterexample input -/

lemma freqIncr_A2 (i j : Nat) (h : i < MAX_FREQ) :
    freqIncr [(65, i), (67, j)] 65 = [(65, i + 1), (67, j)] := by
  simp [freqIncr, charKey, h]

lemma freqIncr_C2 (i j : Nat) (h : j < MAX_FREQ) :
    freqIncr [(65, i), (67, j)] 67 = [(65, i), (67, j + 1)] := by
  simp [freqIncr, charKey, h]

lemma freqIncr_A3 (i j : Nat) (h : i < MAX_FREQ) :
    freqIncr [(65, i), (66, 1), (67, j)] 65 = [(65, i + 1), (66, 1), (67, j)] := by
  simp [freqIncr, charKey, h]

lemma freqIncr_C3e (i j b : Nat) (h : j < MAX_FREQ) :
    freqIncr [(65, i), (66, b), (67, j)] 67 = [(65, i), (66, b), (67, j + 1)] := by
  simp [freqIncr, charKey, h]

/-- Counting a block of `n` interleaved `AC` pairs over a two-symbol
table adds `n` to each count. -/
lemma foldl_AC2 : ∀ (n i j : Nat), i + n ≤ MAX_FREQ → j + n ≤ MAX_FREQ →
    ((List.replicate n ([65, 67] : List Nat)).flatten).foldl freqIncr
      [(65, i), (67, j)] = [(65, i + n), (67, j + n)] := by
  intro n
  induction n with
  | zero => intro i j _ _; simp
  | succ m ih =>
    intro i j hi hj
    rw [List.replicate_succ, List.flatten_cons, List.foldl_append]
    rw [show List.foldl freqIncr [(65, i), (67, j)] [65, 67]
        = [(65, i + 1), (67, j + 1)] from by
      rw [List.foldl_cons, freqIncr_A2 i j (by omega), List.foldl_cons,
        freqIncr_C2 (i + 1) j (by omega), List.foldl_nil]]
    rw [ih (i + 1) (j + 1) (by omega) (by omega)]
    have h1 : i + 1 + m = i + (m + 1) := by omega
    have h2 : j + 1 + m = j + (m + 1) := by omega
    rw [h1, h2]

/-- The same over the three-symbol table (the middle symbol untouched). -/
lemma foldl_AC3 : ∀ (n i j : Nat), i + n ≤ MAX_FREQ → j + n ≤ MAX_FREQ →
    ((List.replicate n ([65, 67] : List Nat)).flatten).foldl freqIncr
      [(65, i), (66, 1), (67, j)] = [(65, i + n), (66, 1), (67, j + n)] := by
  intro n
  induction n with
  | zero => intro i j _ _; simp
  | succ m ih =>
    intro i j hi hj
    rw [List.replicate_succ, List.flatten_cons, List.foldl_append]
    rw [show List.foldl freqIncr [(65, i), (66, 1), (67, j)] [65, 67]
        = [(65, i + 1), (66, 1), (67, j + 1)] from by
      rw [List.foldl_cons, freqIncr_A3 i j (by omega), List.foldl_cons,
        freqIncr_C3e (i + 1) j 1 (by omega), List.foldl_nil]]
    rw [ih (i + 1) (j + 1) (by omega) (by omega)]
    have h1 : i + 1 + m = i + (m + 1) := by omega
    have h2 : j + 1 + m = j + (m + 1) := by omega
    rw [h1, h2]

/-- A trailing run of `n` copies of `C` adds `n` to its count. -/
lemma foldl_C3 : ∀ (n a b j : Nat), j + n ≤ MAX_FREQ →
    (List.replicate n (67 : Nat)).foldl freqIncr [(65, a), (66, b), (67, j)]
      = [(65, a), (66, b), (67, j + n)] := by
  intro n
  induction n with
  | zero => intro a b j _; simp
  | succ m ih =>
    intro a b j hj
    rw [List.replicate_succ, List.foldl_cons, freqIncr_C3e a j b (by omega)]
    rw [ih a b (j + 1) (by omega)]
    have h1 : j + 1 + m = j + (m + 1) := by omega
    rw [h1]

/-- The frequency table of the counterexample input. -/
lemma calculateFrequencies_zeroWidth :
    calculateFrequencies zeroWidthText = [(65, 899), (66, 1), (67, 8100)] := by
  unfold calculateFrequencies zeroWidthText
  rw [List.foldl_append, List.foldl_append, List.foldl_append]
  rw [show (63 : Nat) = 62 + 1 from rfl, List.replicate_succ, List.flatten_cons,
    List.foldl_append]
  rw [show List.foldl freqIncr [] [65, 67] = [(65, 1), (67, 1)] from by decide]
  rw [foldl_AC2 62 1 1 (by decide) (by decide)]
  rw [show List.foldl freqIncr [(65, 1 + 62), (67, 1 + 62)] [66]
      = [(65, 63), (66, 1), (67, 63)] from by decide]
  rw [foldl_AC3 836 63 63 (by decide) (by decide)]
  rw [foldl_C3 7201 (63 + 836) 1 (63 + 836) (by decide)]

/-! ## Exactness of the 32-bit products -/

/-- Under the precondition `total < 2^16` (and a working interval at
least as wide as the total, as renormalisation guarantees), the
`uint32_t` narrowing agrees with exact arithmetic field by field. -/
lemma narrow_eq_exact (st : EncSt) (r : SymbolRange) (total : Nat)
    (hlh : st.low ≤ st.high) (hht : st.high ≤ TOP)
    (hT : total ≤ st.high + 1 - st.low) (h1 : r.low < r.high)
    (h2 : r.high ≤ total) (h3 : r.count = total) (h4 : total < 65536) :
    (narrow st r).low = (narrowExact st r).low ∧
      (narrow st r).high = (narrowExact st r).high ∧
      (narrow st r).pending = st.pending ∧ (narrow st r).bitsRev = st.bitsRev := by
  have hht65 : st.high ≤ 65535 := by rw [TOP_val] at hht; exact hht
  have htpos : 0 < total := by omega
  have hr_le : st.high + 1 - st.low ≤ 65536 := by omega
  have hrange_mod : (st.high + U32 + 1 - st.low) % U32 = st.high + 1 - st.low := by
    have h : st.high + U32 + 1 - st.low = st.high + 1 + U32 - st.low := by omega
    rw [h]
    exact wrap_sub (st.high + 1) st.low (by omega) (by rw [U32_val]; omega)
  have hprod_hi : (st.high + 1 - st.low) * r.high < U32 := by
    have h5 : (st.high + 1 - st.low) * r.high ≤ 65536 * 65535 :=
      Nat.mul_le_mul hr_le (by omega)
    rw [U32_val]
    omega
  have hprod_lo : (st.high + 1 - st.low) * r.low < U32 :=
    lt_of_le_of_lt (Nat.mul_le_mul_left _ (le_of_lt h1)) hprod_hi
  have hth_pos : 1 ≤ (st.high + 1 - st.low) * r.high / total := by
    have h5 : total ≤ (st.high + 1 - st.low) * r.high := by
      have h6 : (st.high + 1 - st.low) * 1 ≤ (st.high + 1 - st.low) * r.high :=
        Nat.mul_le_mul_left _ (by omega)
      omega
    have h6 := Nat.div_le_div_right (c := total) h5
    rwa [Nat.div_self htpos] at h6
  have hth_le : (st.high + 1 - st.low) * r.high / total
      ≤ st.high + 1 - st.low := by
    have h5 : (st.high + 1 - st.low) * r.high ≤ (st.high + 1 - st.low) * total :=
      Nat.mul_le_mul_left _ h2
    have h6 := Nat.div_le_div_right (c := total) h5
    rwa [Nat.mul_div_cancel _ htpos] at h6
  have htl_le : (st.high + 1 - st.low) * r.low / total
      ≤ (st.high + 1 - st.low) * r.high / total :=
    Nat.div_le_div_right (Nat.mul_le_mul_left _ (le_of_lt h1))
  refine ⟨?_, ?_, rfl, rfl⟩
  · show (st.low + (st.high + U32 + 1 - st.low) % U32 * r.low % U32 / r.count) % U32
        = st.low + (st.high + 1 - st.low) * r.low / r.count
    rw [hrange_mod, h3, u32_mod_id _ hprod_lo]
    exact u32_mod_id _ (by rw [U32_val]; omega)
  · show ((st.low + (st.high + U32 + 1 - st.low) % U32 * r.high % U32 / r.count) % U32
          + U32 - 1) % U32
        = st.low + (st.high + 1 - st.low) * r.high / r.count - 1
    rw [hrange_mod, h3, u32_mod_id _ hprod_hi]
    rw [u32_mod_id (st.low + (st.high + 1 - st.low) * r.high / total)
      (by rw [U32_val]; omega)]
    exact wrap_sub _ 1 (by omega) (by rw [U32_val]; omega)

/-- Under the same precondition the decoder's scaling product is exact. -/
lemma scaledValue_exact (st : DecSt) (total range : Nat)
    (h1 : st.low ≤ st.value) (h2 : st.value ≤ TOP) (h3 : 0 < total)
    (h4 : total < 65536) :
    scaledValue st total range = ((st.value - st.low + 1) * total - 1) / range := by
  have hv65 : st.value ≤ 65535 := by rw [TOP_val] at h2; exact h2
  unfold scaledValue
  rw [wrap_sub st.value st.low h1 (by rw [U32_val]; omega)]
  rw [u32_mod_id (st.value - st.low + 1) (by rw [U32_val]; omega)]
  have hprod : (st.value - st.low + 1) * total < U32 := by
    have h5 : (st.value - st.low + 1) * total ≤ 65536 * 65535 :=
      Nat.mul_le_mul (by omega) (by omega)
    rw [U32_val]
    omega
  rw [u32_mod_id _ hprod]
  have hge1 : 1 ≤ (st.value - st.low + 1) * total :=
    Nat.one_le_iff_ne_zero.2 (Nat.mul_ne_zero (by omega) (by omega))
  rw [wrap_sub _ 1 hge1 (by rw [U32_val] at hprod ⊢; omega)]

/-! # The claims -/

/-- **C1** (code bug).  The round-trip property `decompress(compress(b)) = b`
fails at the two-byte input `"AB" = [65, 66]`: the decoder primes its
16-bit `value` register with the 4 emitted bits without left-justifying
them, so it decodes `[65, 65]`. -/
theorem C1_roundtrip_fails : decompressFile (compressFile [65, 66]) = some [65, 65] := by
  decide

/-- **C2** (confirmed).  The encoder narrows by
`high = low + range*symbolHigh/total − 1`, `low = low + range*symbolLow/total`
(truncating 32-bit division by the shared total stored in each range),
renormalises with E1/E2/E3 until none holds, finally emits the resolving
bit and `pendingBits + 1` complementary bits, and its output is exactly
this sequence in emission order: the source encoder produces literally
the bit sequence of the spec-transcribed encoder, and (for byte inputs
short enough that the clamped total stays within `FIRST_QTR + 2`, where
the 32-bit products are exact) every renormalisation loop indeed stops
in a state where none of E1/E2/E3 holds. -/
theorem C2_encoder_follows_spec :
    (∀ text : List Nat, (∀ x ∈ text, x < 256) →
      encodeBits text = specEncodeBits text) ∧
    (∀ text : List Nat, (∀ x ∈ text, x < 256) → text.length ≤ FIRST_QTR + 2 →
      encodeStepsOkAll text = true) :=
  ⟨encodeBits_eq_spec, encodeStepsOkAll_true⟩

/-- Witness for C2 at the concrete input `[65, 66]`. -/
theorem C2_encoder_follows_spec_witness :
    encodeBits [65, 66] = specEncodeBits [65, 66] ∧
      encodeStepsOkAll [65, 66] = true :=
  ⟨C2_encoder_follows_spec.1 [65, 66] (by decide),
   C2_encoder_follows_spec.2 [65, 66] (by decide) (by decide)⟩

/-- **C3** (counterexample).  The claim that decompression surfaces a
hard decode failure whenever the scaled value matches no interval is
false: on `unmatchedContainer` the second decoding step computes a
scaled value (65541) outside every interval, yet decompression returns
normally, silently emitting the fallback byte 0. -/
theorem C3_counterexample :
    decompressHitsUnmatched unmatchedContainer = some true ∧
      decompressFile unmatchedContainer = some [65, 0] := by
  constructor
  · decide
  · decide

/-- **C3 amended**.  When the scaled value lies in no symbol's interval,
the decoder does not fail: the linear scan falls back to symbol 0
(`char symbol = 0;`), the byte is appended, and decoding continues —
the decoder always emits exactly `text_size` symbols. -/
theorem C3_amended_silent_fallback :
    (∀ (ranges : List (Nat × SymbolRange)) (scaled : Nat),
      hasMatch ranges scaled = false → scanSymbol ranges scaled = 0) ∧
    (∀ (freq : List (Nat × Nat)) (text_size : Nat) (bits : List Bool),
      (decompressCore freq text_size bits).length = text_size) :=
  ⟨scanSymbol_unmatched, decompressCore_length⟩

/-- Witness for the amended C3 at a concrete unmatched scan. -/
theorem C3_amended_witness :
    scanSymbol [(65, ⟨0, 1, 2⟩)] 5 = 0 ∧
      (decompressCore [(65, 1)] 3 []).length = 3 :=
  ⟨C3_amended_silent_fallback.1 [(65, ⟨0, 1, 2⟩)] 5 (by decide),
   C3_amended_silent_fallback.2 [(65, 1)] 3 []⟩

/-- **C4** (counterexample).  The alphabet is not iterated in ascending
byte-value order: for the input `[65, 200]` the frequency table lists
symbol 200 before symbol 65, because `std::map<char, _>` orders by the
signed `char` value. -/
theorem C4_counterexample :
    (calculateFrequencies [65, 200]).map Prod.fst = [200, 65] ∧
      ¬ ((200 : Nat) < 65) := by
  constructor
  · decide
  · decide

/-- **C4 amended**.  The alphabet order is ascending *signed* `char`
value (`charKey`: bytes 128–255 before 0–127), strictly sorted for every
byte input; and the decoder rebuilds the identical association list from
the serialised table, so encoder and decoder iterate the alphabet in the
same order. -/
theorem C4_amended_signed_order :
    (∀ text : List Nat, (∀ x ∈ text, x < 256) →
      ((calculateFrequencies text).map (fun p => charKey p.1)).Pairwise (· < ·)) ∧
    (∀ (freq : List (Nat × Nat)) (tail : List Nat),
      ((freq.map (fun p => charKey p.1)).Pairwise (· < ·)) →
      (∀ p ∈ freq, p.2 < U32) →
      parseFreqEntries freq.length
        ((freq.map (fun p => p.1 :: le32 p.2)).flatten ++ tail) []
        = some (freq, tail)) := by
  constructor
  · intro text hb
    exact (calculateFrequencies_inv text hb).1
  · intro freq tail hpw hU
    have := parseFreqEntries_serialized freq [] tail hU (by simp) hpw
    simpa using this

/-- Witness for the amended C4 at the input `[65, 200]`. -/
theorem C4_amended_witness :
    ((calculateFrequencies [65, 200]).map (fun p => charKey p.1)).Pairwise (· < ·) ∧
      parseFreqEntries 2
        (([(200, 1), (65, 1)].map (fun p : Nat × Nat => p.1 :: le32 p.2)).flatten ++ [7])
          []
        = some ([(200, 1), (65, 1)], [7]) :=
  ⟨C4_amended_signed_order.1 [65, 200] (by decide),
   C4_amended_signed_order.2 [(200, 1), (65, 1)] [7] (by decide) (by decide)⟩

/-- **C5** (counterexample).  Decompression does not fail on a container
whose bit payload holds fewer bits than the declared count:
`shortPayloadContainer` declares 100 bits but carries one payload byte,
and decompression proceeds and produces output `[65]`. -/
theorem C5_counterexample : decompressFile shortPayloadContainer = some [65] := by
  decide

/-- **C5 amended**.  The bit source performs no validation: it returns
the declared count's prefix of whatever bits are available — exactly
`min declaredCount (8 * payloadBytes)` bits — and decoding proceeds on
them. -/
theorem C5_amended_truncation :
    ∀ (count : Nat) (rest : List Nat), count < U32 →
      readBitVector (le32 count ++ rest) = some ((unpackBytes rest).take count) ∧
      ((unpackBytes rest).take count).length = min count (8 * rest.length) := by
  intro count rest h
  refine ⟨readBitVector_counted count rest h, ?_⟩
  rw [List.length_take, unpackBytes_length]

/-- Witness for the amended C5: 100 declared bits, one payload byte. -/
theorem C5_amended_witness :
    readBitVector (le32 100 ++ [0]) = some ((unpackBytes [0]).take 100) ∧
      ((unpackBytes [0]).take 100).length = min 100 (8 * 1) :=
  C5_amended_truncation 100 [0] (by decide)

/-- **C6** (confirmed).  Any bit sequence (its length fitting the 32-bit
count field), of any length modulo 8, written by the bit sink and read
back by the bit source yields exactly the original bits; the padding
bits of the final partial byte are ignored. -/
theorem C6_bit_roundtrip : ∀ bits : List Bool, bits.length < U32 →
    readBitVector (writeBitVector bits) = some bits :=
  readBitVector_writeBitVector

/-- Witness for C6 at a 5-bit (non-multiple-of-8) sequence. -/
theorem C6_bit_roundtrip_witness :
    readBitVector (writeBitVector [false, true, false, true, true])
      = some [false, true, false, true, true] :=
  C6_bit_roundtrip [false, true, false, true, true] (by decide)

/-- **C7** (counterexample).  `low < high` does not hold after every
narrowing: encoding `zeroWidthText` (9000 bytes, total 9000) reaches a
narrowing step (the 127th symbol, count 1, with range 16719) where
`low = high = 34431`. -/
theorem C7_counterexample : encodeNarrowStrictAll zeroWidthText = false := by
  unfold encodeNarrowStrictAll
  rw [calculateFrequencies_zeroWidth]
  decide

/-- **C7 amended**.  For byte inputs of length at most `FIRST_QTR + 2`
(so the clamped total keeps the 32-bit products exact): the initial
state has `low < high`; every single E1/E2/E3 renormalisation step
preserves `low < high`; and along the whole encoder run each narrowing
yields `low ≤ high` (equality is possible — the interval can
transiently have zero width) while every completed renormalisation
restores `low < high` with none of E1/E2/E3 still holding. -/
theorem C7_amended_interval_invariant :
    encInit.low < encInit.high ∧
    (∀ st : EncSt, st.low ≤ st.high → st.high ≤ TOP →
      condE1 st ∨ condE2 st ∨ condE3 st →
      (renormE 1 st).low < (renormE 1 st).high) ∧
    (∀ text : List Nat, (∀ x ∈ text, x < 256) → text.length ≤ FIRST_QTR + 2 →
      encodeStepsOkAll text = true) :=
  ⟨by decide, renorm_single_step, encodeStepsOkAll_true⟩

/-- Witness for the amended C7: a concrete E1 step and a concrete run. -/
theorem C7_amended_witness :
    (renormE 1 ⟨0, 30000, 0, []⟩).low < (renormE 1 ⟨0, 30000, 0, []⟩).high ∧
      encodeStepsOkAll [65, 66] = true :=
  ⟨C7_amended_interval_invariant.2.1 ⟨0, 30000, 0, []⟩ (by decide) (by decide)
      (Or.inl (by decide)),
   C7_amended_interval_invariant.2.2 [65, 66] (by decide) (by decide)⟩

/-- **C8** (confirmed).  The frequency table of any byte input maps
exactly the distinct bytes present to their occurrence counts clamped at
`MAX_FREQ` (a silent clamp, never an error), all counts lie in
`[1, MAX_FREQ]`, and the empty input yields the empty table. -/
theorem C8_frequency_clamp :
    calculateFrequencies [] = [] ∧
    (∀ (text : List Nat) (b : Nat), (∀ x ∈ text, x < 256) →
      freqCount (calculateFrequencies text) b = min (text.count b) MAX_FREQ ∧
      (b ∈ (calculateFrequencies text).map Prod.fst ↔ b ∈ text)) ∧
    (∀ text : List Nat, (∀ x ∈ text, x < 256) →
      ∀ p ∈ calculateFrequencies text, 1 ≤ p.2 ∧ p.2 ≤ MAX_FREQ) :=
  ⟨rfl,
   fun text b h => ⟨calculateFrequencies_count text b h,
     calculateFrequencies_mem text b h⟩,
   fun text h p hp => ((calculateFrequencies_inv text h).2 p hp).2⟩

/-- Witness for C8 at the input `[65, 65, 66]`, symbol 65. -/
theorem C8_frequency_clamp_witness :
    freqCount (calculateFrequencies [65, 65, 66]) 65
        = min ([65, 65, 66].count 65) MAX_FREQ ∧
      (65 ∈ (calculateFrequencies [65, 65, 66]).map Prod.fst ↔ 65 ∈ [65, 65, 66]) :=
  (C8_frequency_clamp.2.1 [65, 65, 66] 65 (by decide))

/-- **C9** (confirmed).  For every nonempty frequency table with positive
counts (and total below `2^32`), the cumulative ranges tile `[0, total)`
exactly: the first `low` is 0, each `high` equals the next `low`, the
last `high` equals the grand total, every interval is nonempty, and
every value below the total lies in exactly one half-open interval — so
the decoder's linear scan has exactly one match for any scaled value
below the total. -/
theorem C9_cumulative_tiling : ∀ freq : List (Nat × Nat), freq ≠ [] →
    (∀ p ∈ freq, 1 ≤ p.2) → sumCounts freq < U32 →
    ((buildCumulativeFreq freq).1.head?.map (fun p => p.2.low) = some 0) ∧
    ((buildCumulativeFreq freq).1.Chain' (fun p q => p.2.high = q.2.low)) ∧
    ((buildCumulativeFreq freq).1.getLast?.map (fun p => p.2.high)
      = some (buildCumulativeFreq freq).2) ∧
    (∀ p ∈ (buildCumulativeFreq freq).1, p.2.low < p.2.high) ∧
    (∀ v, v < (buildCumulativeFreq freq).2 →
      ((buildCumulativeFreq freq).1.countP
        (fun p => decide (p.2.low ≤ v ∧ v < p.2.high))) = 1) := by
  intro freq hne hpos hU
  have ht : freqTotal freq = sumCounts freq := freqTotal_eq_sum freq hU
  refine ⟨?_, ?_, ?_, ?_, ?_⟩
  · simp only [buildCumulativeFreq]
    exact cumRanges_head_low _ _ _ hne
  · simp only [buildCumulativeFreq]
    exact cumRanges_chain _ _ _
  · simp only [buildCumulativeFreq]
    have := cumRanges_last_high freq (freqTotal freq) 0 (by omega) hne
    rw [this, Nat.zero_add, ht]
  · simp only [buildCumulativeFreq]
    intro p hp
    exact (cumRanges_bounds freq (freqTotal freq) 0 (by omega) hpos p hp).2.1
  · simp only [buildCumulativeFreq]
    intro v hv
    rw [ht] at hv
    exact cumRanges_countP_one freq (freqTotal freq) 0 v (by omega) hpos
      (by omega) (by omega)

/-- Witness for C9 at the table `[(65, 2), (66, 3)]`. -/
theorem C9_cumulative_tiling_witness :
    ((buildCumulativeFreq [(65, 2), (66, 3)]).1.head?.map (fun p => p.2.low)
      = some 0) ∧
    ((buildCumulativeFreq [(65, 2), (66, 3)]).1.getLast?.map (fun p => p.2.high)
      = some (buildCumulativeFreq [(65, 2), (66, 3)]).2) ∧
    (∀ v, v < (buildCumulativeFreq [(65, 2), (66, 3)]).2 →
      ((buildCumulativeFreq [(65, 2), (66, 3)]).1.countP
        (fun p => decide (p.2.low ≤ v ∧ v < p.2.high))) = 1) := by
  have h := C9_cumulative_tiling [(65, 2), (66, 3)] (by decide)
    (by decide) (by decide)
  exact ⟨h.1, h.2.2.1, h.2.2.2.2⟩

/-- **C10** (confirmed).  The coder multiplications are 32-bit (reduced
`mod 2^32` in the embedding); with the grand total below `2^16` — and
the coder state in range — the narrowing and the decoder scaling agree
with exact arithmetic, while without the precondition the total can
reach `256 * MAX_FREQ = 4194048` and `range * symbolHigh` then wraps
past `2^32`. -/
theorem C10_product_exactness :
    (∀ (st : EncSt) (r : SymbolRange) (total : Nat),
      st.low ≤ st.high → st.high ≤ TOP → total ≤ st.high + 1 - st.low →
      r.low < r.high → r.high ≤ total → r.count = total → total < 65536 →
      (narrow st r).low = (narrowExact st r).low ∧
        (narrow st r).high = (narrowExact st r).high ∧
        (narrow st r).pending = st.pending ∧ (narrow st r).bitsRev = st.bitsRev) ∧
    (∀ (st : DecSt) (total range : Nat),
      st.low ≤ st.value → st.value ≤ TOP → 0 < total → total < 65536 →
      scaledValue st total range
        = ((st.value - st.low + 1) * total - 1) / range) ∧
    (256 * MAX_FREQ = 4194048 ∧
      65536 * (256 * MAX_FREQ) % U32 ≠ 65536 * (256 * MAX_FREQ)) :=
  ⟨fun st r total hlh hht hT h1 h2 h3 h4 =>
    narrow_eq_exact st r total hlh hht hT h1 h2 h3 h4,
   fun st total range h1 h2 h3 h4 => scaledValue_exact st total range h1 h2 h3 h4,
   by decide, by decide⟩

/-- Witness for C10 at a concrete state and range. -/
theorem C10_product_exactness_witness :
    ((narrow ⟨0, 65535, 0, []⟩ ⟨1, 3, 10⟩).low
        = (narrowExact ⟨0, 65535, 0, []⟩ ⟨1, 3, 10⟩).low ∧
      (narrow ⟨0, 65535, 0, []⟩ ⟨1, 3, 10⟩).high
        = (narrowExact ⟨0, 65535, 0, []⟩ ⟨1, 3, 10⟩).high ∧
      (narrow ⟨0, 65535, 0, []⟩ ⟨1, 3, 10⟩).pending = 0 ∧
      (narrow ⟨0, 65535, 0, []⟩ ⟨1, 3, 10⟩).bitsRev = []) ∧
    scaledValue ⟨0, 65535, 7, []⟩ 10 65536
      = ((7 - 0 + 1) * 10 - 1) / 65536 :=
  ⟨C10_product_exactness.1 ⟨0, 65535, 0, []⟩ ⟨1, 3, 10⟩ 10 (by decide) (by decide)
      (by decide) (by decide) (by decide) (by decide) (by decide),
   C10_product_exactness.2.1 ⟨0, 65535, 7, []⟩ 10 65536 (by decide) (by decide)
      (by decide) (by decide)⟩
